import Mathlib

/-!
Verification of the per-bundle execution engine of
`sdks/python/apache_beam/runners/worker/bundle_processor.py`.

The Python source is embedded shallowly:

* machine arithmetic on indices is `ℤ`; Python floats appearing in the split
  calculator are modelled as `ℚ` (the values exercised by the concrete claims
  are exactly representable in binary floating point, and the general theorems
  depend only on comparisons the code performs explicitly);
* `float('inf')` (the initial `stop` bound) is modelled as `none` in an
  `Option ℤ`, with `some k` for a bound set by a split;
* Python's stable `sorted` is `List.insertionSort (· ≤ ·)`;
* `bisect.bisect_left l x` / `bisect.bisect_right l x` on a sorted list equal
  the number of elements `< x` (resp. `≤ x`), which is how they are embedded;
* `sortedcontainers.SortedList.add` is `List.orderedInsert (· ≤ ·)`;
* byte buffers handed to `process_encoded` are modelled as the list of the
  elements they decode to (one decode step consumes one element of the list);
* the remote state service is modelled by the requests issued to it.
-/

/-- Python 3 `round` on a real value: round half to even (banker's rounding).
`int(round(x))` in the source is this function. -/
def pyRound (q : ℚ) : ℤ :=
  if q - ⌊q⌋ < 1/2 then ⌊q⌋
  else if 1/2 < q - ⌊q⌋ then ⌊q⌋ + 1
  else if ⌊q⌋ % 2 = 0 then ⌊q⌋ else ⌊q⌋ + 1

/-- `bisect.bisect_left l x` for a sorted list `l`: the number of elements `< x`. -/
def bisect_left (l : List ℤ) (x : ℤ) : ℕ :=
  l.countP (fun a => decide (a < x))

/-- `bisect.bisect(l, x)` (= `bisect_right`) for a sorted list `l`:
the number of elements `≤ x`. -/
def bisect_right (l : List ℤ) (x : ℤ) : ℕ :=
  l.countP (fun a => decide (a ≤ x))

/-- `x < stop` where `stop` is `+∞` (`none`) or an integer. -/
def ltStop (x : ℤ) (stop : Option ℤ) : Prop :=
  match stop with
  | none => True
  | some s => x < s

instance : (x : ℤ) → (stop : Option ℤ) → Decidable (ltStop x stop)
  | _, none => isTrue trivial
  | x, some s => inferInstanceAs (Decidable (x < s))

/-- Order on `stop` bounds where `none` is `+∞`. -/
def stopLE (x y : Option ℤ) : Prop :=
  match y, x with
  | none, _ => True
  | some _, none => False
  | some b, some a => a ≤ b

instance : (x : Option ℤ) → (y : Option ℤ) → Decidable (stopLE x y)
  | _, none => isTrue trivial
  | none, some _ => isFalse (fun h => h)
  | some a, some b => inferInstanceAs (Decidable (a ≤ b))

/-- The snap-to-allowed-split-point step of
`DataInputOperation._compute_split` (source lines 325-339): when the computed
`stop_index` is not an allowed split point, sort the allowed points, find the
insertion point with `bisect.bisect` and choose between the neighbouring
points. -/
def snap_to_allowed (allowed_split_points : List ℤ) (index stop_index : ℤ) : ℤ :=
  let sorted_points := List.insertionSort (· ≤ ·) allowed_split_points
  let closest := bisect_right sorted_points stop_index
  if closest = 0 then sorted_points.headD 0
  else if closest = sorted_points.length then sorted_points.getLastD 0
  else
    let previous := sorted_points.getD (closest - 1) 0
    let next := sorted_points.getD closest 0
    if index < previous ∧ stop_index - previous < next - stop_index then previous
    else next

/-- `is_valid_split_point` of `_compute_split` (source lines 298-299): a
member of `allowed_split_points`, or any point when that set is empty. -/
def is_valid_split_point (allowed_split_points : List ℤ) (i : ℤ) : Prop :=
  allowed_split_points = [] ∨ i ∈ allowed_split_points

instance (allowed_split_points : List ℤ) (i : ℤ) :
    Decidable (is_valid_split_point allowed_split_points i) := by
  unfold is_valid_split_point
  infer_instance

/-- The clamp of `total_buffer_size` into `[index + 1, stop]` at the head of
`_compute_split` (source lines 301-304). -/
def clamp_total_buffer_size (index : ℤ) (stop : Option ℤ)
    (total_buffer_size : ℤ) : ℤ :=
  if total_buffer_size < index + 1 then index + 1
  else
    match stop with
    | some s => if total_buffer_size > s then s else total_buffer_size
    | none => total_buffer_size

/-- The in-element split attempt of `_compute_split` (source lines 309-321,
the `current_element_progress < 1` branch): when less than one element is to
be kept and both `index` and `index + 1` are valid split points, ask the
receiver to split the current element; the current element then becomes
residual and the range is capped at `index + 1`. -/
def element_split_attempt {α β : Type} (index : ℤ)
    (current_element_progress : ℚ) (keep : ℚ) (allowed_split_points : List ℤ)
    (try_split : ℚ → Option (List α × List β)) :
    Option (ℤ × List α × List β × ℤ) :=
  if current_element_progress < 1 then
    let keep_of_element_remainder := keep / (1 - current_element_progress)
    if keep_of_element_remainder < 1 ∧
        is_valid_split_point allowed_split_points index ∧
        is_valid_split_point allowed_split_points (index + 1) then
      match try_split keep_of_element_remainder with
      | some (element_primaries, element_residuals) =>
        some (index - 1, element_primaries, element_residuals, index + 1)
      | none => none
    else none
  else none

/-- The element-boundary candidate of `_compute_split` (source lines 322-339):
`stop_index = index + max(1, round(progress + keep))`, snapped to the closest
allowed split point when it is not itself one. -/
def boundary_stop_index (index : ℤ) (current_element_progress : ℚ)
    (keep : ℚ) (allowed_split_points : List ℤ) : ℤ :=
  let stop_index0 : ℤ :=
    index + max 1 (pyRound (current_element_progress + keep))
  if allowed_split_points ≠ [] ∧ stop_index0 ∉ allowed_split_points then
    snap_to_allowed allowed_split_points index stop_index0
  else stop_index0

/-- `DataInputOperation._compute_split` (source lines 289-343), the pure split
calculator.  `try_split` is the downstream receiver's element-splitting hook
(`self.receivers[0].try_split`); `α`/`β` are the opaque primary/residual
descriptor types (`SdfSplitResultsPrimary`/`SdfSplitResultsResidual`). -/
def compute_split {α β : Type} (index : ℤ) (current_element_progress : ℚ)
    (stop : Option ℤ) (fraction_of_remainder : ℚ) (total_buffer_size : ℤ)
    (allowed_split_points : List ℤ)
    (try_split : ℚ → Option (List α × List β)) :
    Option (ℤ × List α × List β × ℤ) :=
  let tbs : ℤ := clamp_total_buffer_size index stop total_buffer_size
  let remainder : ℚ := (tbs : ℚ) - (index : ℚ) - current_element_progress
  let keep : ℚ := remainder * fraction_of_remainder
  match element_split_attempt index current_element_progress keep
      allowed_split_points try_split with
  | some result => some result
  | none =>
    -- otherwise split at the closest element boundary
    let stop_index : ℤ :=
      boundary_stop_index index current_element_progress keep
        allowed_split_points
    if index < stop_index ∧ ltStop stop_index stop then
      some (stop_index - 1, [], [], stop_index)
    else none

/-- The mutable splitting state of a `DataInputOperation` (source lines
196-199): `index` is the last fully emitted element ordinal (`-1` before any),
`stop` the exclusive bound (`none` = `float('inf')`), `started` the flag set
by `start` and cleared by `finish`. -/
structure DataInputOperation where
  index : ℤ
  stop : Option ℤ
  started : Bool
deriving DecidableEq

/-- The state a `DataInputOperation` is constructed with. -/
def DataInputOperation.initial : DataInputOperation :=
  { index := -1, stop := none, started := false }

/-- The loop guard `self.index == self.stop - 1` of `process_encoded`
(source line 227); always false while `stop` is `float('inf')`. -/
def DataInputOperation.stopHit (op : DataInputOperation) : Prop :=
  match op.stop with
  | none => False
  | some s => op.index = s - 1

instance : (op : DataInputOperation) → Decidable op.stopHit
  | ⟨_, none, _⟩ => isFalse (fun h => h)
  | ⟨i, some s, _⟩ => inferInstanceAs (Decidable (i = s - 1))

/-- `DataInputOperation.process_encoded` (source lines 223-237).  The byte
buffer is modelled as the list of elements it decodes to.  Per loop iteration,
under the lock: if `index == stop - 1` return (the rest of the buffer is
dropped — it is simply never decoded, and no part of the state retains it);
otherwise increment `index`, decode one element and emit it downstream.  The
result pairs each emitted element with the ordinal (`index` value) it was
emitted at. -/
def DataInputOperation.process_encoded {α : Type} (op : DataInputOperation)
    (buffer : List α) : DataInputOperation × List (ℤ × α) :=
  match buffer with
  | [] => (op, [])
  | v :: rest =>
    if op.stopHit then (op, [])
    else
      let op1 : DataInputOperation := { op with index := op.index + 1 }
      let res := op1.process_encoded rest
      (res.1, (op1.index, v) :: res.2)

/-- The `current_element_progress` computation of
`DataInputOperation.try_split` (source lines 265-275): `1.0` when no element
has been emitted yet, otherwise the receiver's in-progress fraction
(`receiver_progress` stands for
`self.receivers[0].current_element_progress()`; `none` when that returns
`None`, in which case `0.5` is used). -/
def data_input_current_progress (index : ℤ)
    (receiver_progress : Option ℚ) : ℚ :=
  if index = -1 then 1
  else
    match receiver_progress with
    | none => 1/2
    | some p => p

/-- `DataInputOperation.try_split` (source lines 254-287), continued: delegate
to the split calculator and, on success, update `stop` to the returned
residual start (`self.stop = split[-1]`). -/
def DataInputOperation.try_split {α β : Type} (op : DataInputOperation)
    (receiver_progress : Option ℚ)
    (receiver_try_split : ℚ → Option (List α × List β))
    (fraction_of_remainder : ℚ) (total_buffer_size : ℤ)
    (allowed_split_points : List ℤ) :
    DataInputOperation × Option (ℤ × List α × List β × ℤ) :=
  if ¬ op.started then (op, none)
  else
    match compute_split op.index
        (data_input_current_progress op.index receiver_progress) op.stop
        fraction_of_remainder total_buffer_size allowed_split_points
        receiver_try_split with
    | some split => ({ op with stop := some split.2.2.2 }, some split)
    | none => (op, none)

/-- `index < stop` (with `stop = none` meaning `+∞`): the invariant the
adapter maintains between its position and its bound. -/
def DataInputOperation.indexLtStop (op : DataInputOperation) : Prop :=
  ltStop op.index op.stop

instance (op : DataInputOperation) : Decidable op.indexLtStop :=
  inferInstanceAs (Decidable (ltStop op.index op.stop))

/-- A sequence of `process_encoded` calls, one per delivered buffer
(`process_bundle` pumps every incoming `Elements.Data` chunk into
`process_encoded`, source lines 1273-1275). -/
def DataInputOperation.process_sequence {α : Type} (op : DataInputOperation)
    (buffers : List (List α)) : DataInputOperation × List (ℤ × α) :=
  match buffers with
  | [] => (op, [])
  | b :: rest =>
    let r1 := op.process_encoded b
    let r2 := r1.1.process_sequence rest
    (r2.1, r1.2 ++ r2.2)

/-- The arguments of one `try_split` call
(`fraction_of_remainder, total_buffer_size, allowed_split_points` from the
runner's `desired_split`, plus the downstream receiver's state the call
observes). -/
structure SplitRequest where
  receiver_progress : Option ℚ
  receiver_try_split : ℚ → Option (List Unit × List Unit)
  fraction_of_remainder : ℚ
  total_buffer_size : ℤ
  allowed_split_points : List ℤ

/-- The successive adapter states along a sequence of `try_split` calls. -/
def try_split_states (op : DataInputOperation) :
    List SplitRequest → List DataInputOperation
  | [] => []
  | req :: rest =>
    let op' := (op.try_split req.receiver_progress req.receiver_try_split
      req.fraction_of_remainder req.total_buffer_size
      req.allowed_split_points).1
    op' :: try_split_states op' rest

/-- `RangeSet` (source lines 694-739): a set of half-open integer ranges
`[x, y)`, stored as two parallel `SortedList`s of start points and end
points. -/
structure RangeSet where
  sorted_starts : List ℤ
  sorted_ends : List ℤ
deriving DecidableEq

/-- `RangeSet()` — both sorted lists empty. -/
def RangeSet.empty : RangeSet :=
  { sorted_starts := [], sorted_ends := [] }

/-- `RangeSet.add` (source lines 701-724).  No-op when `start >= end`.
`min_idx` is the first range whose end point is `>= start`; `max_idx` the
first range whose start point is `> end`.  When the new range is beyond all
current ranges it is inserted as is; otherwise the overlapping run
`ranges[min_idx:max_idx]` is deleted and replaced by its merge with the new
range.  (`SortedList` indexing is total in Python only because the branch
guarantees the indices are in range; `getD`'s default is never reached.) -/
def RangeSet.add (rs : RangeSet) (start end_ : ℤ) : RangeSet :=
  if start ≥ end_ then rs
  else
    let min_idx := bisect_left rs.sorted_ends start
    let max_idx := bisect_right rs.sorted_starts end_
    if min_idx ≥ rs.sorted_starts.length ∨ max_idx = 0 then
      -- the new range is beyond any current ranges
      { sorted_starts := List.orderedInsert (· ≤ ·) start rs.sorted_starts,
        sorted_ends := List.orderedInsert (· ≤ ·) end_ rs.sorted_ends }
    else
      -- the new range overlaps with ranges[min_idx:max_idx]
      let new_start := min start (rs.sorted_starts.getD min_idx 0)
      let new_end := max end_ (rs.sorted_ends.getD (max_idx - 1) 0)
      let starts' :=
        rs.sorted_starts.take min_idx ++ rs.sorted_starts.drop max_idx
      let ends' :=
        rs.sorted_ends.take min_idx ++ rs.sorted_ends.drop max_idx
      { sorted_starts := List.orderedInsert (· ≤ ·) new_start starts',
        sorted_ends := List.orderedInsert (· ≤ ·) new_end ends' }

/-- `RangeSet.__contains__` (source lines 726-729): `key` is covered when it
equals the start of the range at its insertion point, or lies strictly inside
the preceding range. -/
def RangeSet.contains (rs : RangeSet) (key : ℤ) : Prop :=
  let idx := bisect_left rs.sorted_starts key
  (idx < rs.sorted_starts.length ∧ rs.sorted_starts.getD idx 0 = key) ∨
  (0 < idx ∧ rs.sorted_ends.getD (idx - 1) 0 > key)

instance (rs : RangeSet) (key : ℤ) : Decidable (rs.contains key) :=
  inferInstanceAs (Decidable (_ ∨ _))

/-- The stored ranges, as `(start, end)` pairs (`RangeSet.__iter__`,
source lines 735-736). -/
def RangeSet.ranges (rs : RangeSet) : List (ℤ × ℤ) :=
  rs.sorted_starts.zip rs.sorted_ends

/-- Fold a sequence of `add` calls over an initially empty `RangeSet`. -/
def RangeSet.addAll (adds : List (ℤ × ℤ)) : RangeSet :=
  adds.foldl (fun rs a => rs.add a.1 a.2) RangeSet.empty

/-- A request issued to the remote state service (`StateServicer` calls
`clear` / `extend`; the ordered-list state issues one `clear` per pending
remove range, keyed by that range). -/
inductive StateRequest (E : Type) where
  | clearReq : StateRequest E
  | clearRangeReq (start stop : ℤ) : StateRequest E
  | appendReq (values : List E) : StateRequest E
deriving DecidableEq

/-- What a `commit` did: the requests it issued to the state handler and the
subset of those whose futures it waited on (`.get()`) before returning. -/
structure CommitResult (E : Type) where
  issued : List (StateRequest E)
  awaited : List (StateRequest E)
deriving DecidableEq

/-- The local buffer of `SynchronousBagRuntimeState` (source lines 597-607):
a cleared flag plus locally added elements. -/
structure SynchronousBagRuntimeState (V : Type) where
  cleared : Bool
  added_elements : List V
deriving DecidableEq

/-- `SynchronousBagRuntimeState.commit` (source lines 623-632): issue a clear
when cleared, an append when there are local adds, then `.get()` only
`to_await`, the *last* future issued (the variable is overwritten when both
requests are issued). -/
def SynchronousBagRuntimeState.commit {V : Type}
    (st : SynchronousBagRuntimeState V) : CommitResult V :=
  let to_await1 : Option (StateRequest V) :=
    if st.cleared then some .clearReq else none
  let to_await2 : Option (StateRequest V) :=
    if st.added_elements.isEmpty then to_await1
    else some (.appendReq st.added_elements)
  { issued :=
      (if st.cleared then [StateRequest.clearReq] else []) ++
        (if st.added_elements.isEmpty then []
          else [StateRequest.appendReq st.added_elements]),
    awaited := to_await2.toList }

/-- The local buffer of `SynchronousSetRuntimeState` (source lines 635-645);
`added_elements` is the Python set in its iteration order. -/
structure SynchronousSetRuntimeState (V : Type) where
  cleared : Bool
  added_elements : List V
deriving DecidableEq

/-- `SynchronousSetRuntimeState.commit` (source lines 682-691): textually the
same protocol as the bag commit — only the last issued future is awaited. -/
def SynchronousSetRuntimeState.commit {V : Type}
    (st : SynchronousSetRuntimeState V) : CommitResult V :=
  let to_await1 : Option (StateRequest V) :=
    if st.cleared then some .clearReq else none
  let to_await2 : Option (StateRequest V) :=
    if st.added_elements.isEmpty then to_await1
    else some (.appendReq st.added_elements)
  { issued :=
      (if st.cleared then [StateRequest.clearReq] else []) ++
        (if st.added_elements.isEmpty then []
          else [StateRequest.appendReq st.added_elements]),
    awaited := to_await2.toList }

/-- The pending local state of `SynchronousOrderedListRuntimeState`
(source lines 742-759): pending adds grouped by timestamp key (ascending,
per-key insertion order preserved, as in the `SortedDict`), and pending
removes as the disjoint ranges of a `RangeSet`. -/
structure SynchronousOrderedListRuntimeState (V : Type) where
  cleared : Bool
  pending_adds : List (ℤ × List V)
  pending_removes : List (ℤ × ℤ)
deriving DecidableEq

/-- `SynchronousOrderedListRuntimeState.commit` (source lines 837-865): one
clear per disjoint pending-remove range, one append covering all pending
adds, then `.get()` on *every* collected future; both pending collections are
reset and `cleared` dropped. -/
def SynchronousOrderedListRuntimeState.commit {V : Type}
    (st : SynchronousOrderedListRuntimeState V) :
    CommitResult (ℤ × V) × SynchronousOrderedListRuntimeState V :=
  let clear_futures : List (StateRequest (ℤ × V)) :=
    st.pending_removes.map (fun r => StateRequest.clearRangeReq r.1 r.2)
  let items_to_add : List (ℤ × V) :=
    (st.pending_adds.map (fun kv => kv.2.map (fun v => (kv.1, v)))).flatten
  let futures : List (StateRequest (ℤ × V)) :=
    clear_futures ++
      (if st.pending_adds.isEmpty then []
        else [StateRequest.appendReq items_to_add])
  ({ issued := futures, awaited := futures },
    { cleared := false, pending_adds := [], pending_removes := [] })

/-- The user-facing pieces of a `CombineFn` as `CombiningValueRuntimeState`
(source lines 533-575) uses them: `create_accumulator`, `add_input`,
`merge_accumulators` and `extract_output`.  `A`/`V`/`O` are the accumulator,
input and output types. -/
structure CombineFn (A V O : Type) where
  create_accumulator : A
  add_input : A → V → A
  merge_accumulators : List A → A
  extract_output : A → O

/-- `CombiningValueRuntimeState._read_accumulator` (source lines 543-549):
merge the accumulators stored in the underlying bag; when `rewrite` is set,
replace the bag's contents with the single merged accumulator.  The
underlying bag is modelled by its visible contents (remote accumulators, when
not cleared, followed by local adds). -/
def read_accumulator {A V O : Type} (cf : CombineFn A V O) (rewrite : Bool)
    (content : List A) : A × List A :=
  let merged_accumulator := cf.merge_accumulators content
  (merged_accumulator, if rewrite then [merged_accumulator] else content)

/-- `CombiningValueRuntimeState.read` (source lines 551-552): extract the
output of the merged accumulator (with rewrite). -/
def combining_read {A V O : Type} (cf : CombineFn A V O) (content : List A) :
    O × List A :=
  let r := read_accumulator cf true content
  (cf.extract_output r.1, r.2)

/-- `CombiningValueRuntimeState.add` (source lines 554-564): with probability
0.5 (`coin_lt_half`, the outcome of `random.random() < 0.5`) merge the
existing accumulators, clear the bag and re-add the updated merge; otherwise
append a fresh singleton accumulator. -/
def combining_add {A V O : Type} (cf : CombineFn A V O) (coin_lt_half : Bool)
    (content : List A) (value : V) : List A :=
  let acc_and_rest : A × List A :=
    if coin_lt_half then ((read_accumulator cf false content).1, [])
    else (cf.create_accumulator, content)
  acc_and_rest.2 ++ [cf.add_input acc_and_rest.1 value]

/-- One user operation against a `CombiningValueRuntimeState`: an `add`
(together with the coin-flip outcome its internals observe) or a `read`. -/
inductive CombiningOp (V : Type) where
  | addOp (value : V) (coin_lt_half : Bool)
  | readOp
deriving DecidableEq

/-- Run a sequence of operations over the underlying bag contents. -/
def combining_run {A V O : Type} (cf : CombineFn A V O) :
    List (CombiningOp V) → List A → List A
  | [], content => content
  | .addOp v coin :: rest, content =>
    combining_run cf rest (combining_add cf coin content v)
  | .readOp :: rest, content =>
    combining_run cf rest (combining_read cf content).2

/-- The values added by a sequence of operations, in order. -/
def added_values {V : Type} (ops : List (CombiningOp V)) : List V :=
  ops.filterMap fun op =>
    match op with
    | .addOp v _ => some v
    | .readOp => none

/-- `StateBackedSideInputMap._BULK_READ_LIMIT` (source line 386). -/
def bulk_read_limit : ℕ := 100

/-- The `_bulk_read` marker of the `MultiMap` view (source lines 387-388,
444): `fully` for `_BULK_READ_FULLY`, `partly` for `_BULK_READ_PARTIALLY`. -/
inductive BulkReadStatus where
  | fully
  | partly
deriving DecidableEq

/-- Python `dict` update `cache[k] = v` on an insertion-ordered,
key-unique association list. -/
def dict_set {K V : Type} [DecidableEq K] :
    List (K × V) → K → V → List (K × V)
  | [], k, v => [(k, v)]
  | (k', v') :: rest, k, v =>
    if k' = k then (k, v) :: rest else (k', v') :: dict_set rest k v

/-- Python `dict` lookup. -/
def dict_get {K V : Type} [DecidableEq K] : List (K × V) → K → Option V
  | [], _ => none
  | (k', v) :: rest, k => if k' = k then some v else dict_get rest k

/-- The mutable state of one `MultiMap` side-input view (source lines
443-445): the `_bulk_read` marker and the shared `cache` dict. -/
structure MultiMapView (K W : Type) where
  bulk_read : Option BulkReadStatus
  cache : List (K × List W)
deriving DecidableEq

/-- The bulk-read loop of `MultiMap.__getitem__` (source lines 456-475):
enumerate the iterable of `(key, values)` pairs, caching each; after caching
a pair with `ix > _BULK_READ_LIMIT`, stop and mark `partially`; when the
iteration ends normally mark `fully`; when the iterable protocol raises
(modelled by `raises_at_end` after the listed entries) mark `partially`. -/
def bulk_load_loop {K W : Type} [DecidableEq K] (raises_at_end : Bool) :
    ℕ → List (K × List W) → List (K × List W) →
    List (K × List W) × BulkReadStatus
  | _, cache, [] => (cache, if raises_at_end then .partly else .fully)
  | ix, cache, (k, vs) :: rest =>
    let cache' := dict_set cache k vs
    if ix > bulk_read_limit then (cache', .partly)
    else bulk_load_loop raises_at_end (ix + 1) cache' rest

/-- `MultiMap.__getitem__` (source lines 447-488).  `iterable_entries` (with
`iterable_raises`) model what iterating the `MultimapKeysValuesSideInput`
iterable yields; `point_lookup` models the `_StateBackedIterable` created for
a per-key `multimap_side_input` lookup.  Returns the value for `key` and the
updated view state. -/
def multimap_getitem {K W : Type} [DecidableEq K] (use_bulk_read : Bool)
    (iterable_entries : List (K × List W)) (iterable_raises : Bool)
    (point_lookup : K → List W) (st : MultiMapView K W) (key : K) :
    List W × MultiMapView K W :=
  let st1 : MultiMapView K W :=
    if use_bulk_read ∧ st.bulk_read = none then
      let r := bulk_load_loop iterable_raises 0 st.cache iterable_entries
      { bulk_read := some r.2, cache := r.1 }
    else st
  if use_bulk_read ∧ st1.bulk_read = some .fully then
    ((dict_get st1.cache key).getD [], st1)
  else
    match dict_get st1.cache key with
    | some vs => (vs, st1)
    | none =>
      (point_lookup key,
        { st1 with cache := dict_set st1.cache key (point_lookup key) })

/-- The freshly constructed `MultiMap` view: no bulk read attempted yet,
empty cache. -/
def MultiMapView.initial {K W : Type} : MultiMapView K W :=
  { bulk_read := none, cache := [] }

/-- The part of a `ProcessBundleDescriptor` transform that
`create_execution_tree` consults (source lines 1153-1194): its id, its
non-side-input input pcollections and its output pcollections.  Transform and
pcollection ids are opaque strings, modelled as `ℕ`. -/
structure TransformProto where
  id : ℕ
  inputs : List ℕ
  outputs : List ℕ
deriving DecidableEq

/-- `pcoll_consumers` (source lines 1159-1163): the transforms that list the
pcollection among their non-side-input inputs, in descriptor order. -/
def pcoll_consumers (transforms : List TransformProto) (pcoll_id : ℕ) :
    List ℕ :=
  (transforms.filter (fun t => decide (pcoll_id ∈ t.inputs))).map (fun t => t.id)

/-- The output pcollections of a transform. -/
def transform_outputs (transforms : List TransformProto) (tid : ℕ) : List ℕ :=
  match transforms.find? (fun t => decide (t.id = tid)) with
  | some t => t.outputs
  | none => []

/-- `topological_height` (source lines 1182-1188):
`1 + max([0] + [height of each consumer of an output pcollection])`.  The
memoized Python recursion terminates because the graph is acyclic; the `fuel`
argument (instantiated with the number of transforms, an upper bound on the
height of an acyclic graph) makes the recursion structural. -/
def topological_height (transforms : List TransformProto) :
    ℕ → ℕ → ℕ
  | 0, _ => 0
  | fuel + 1, tid =>
    1 + (((transform_outputs transforms tid).map
        (pcoll_consumers transforms)).flatten.map
        (topological_height transforms fuel)).foldl max 0

/-- The order of `self.ops` as built by `create_execution_tree` (source lines
1190-1194): transform ids sorted by topological height, descending
(`sorted(..., key=topological_height, reverse=True)`, a stable sort). -/
def execution_order (transforms : List TransformProto) : List ℕ :=
  List.insertionSort
    (fun a b =>
      topological_height transforms transforms.length b ≤
        topological_height transforms transforms.length a)
    (transforms.map (fun t => t.id))

/-- The order in which `process_bundle` starts operations (source lines
1223-1227): `for op in reversed(self.ops.values()): op.start()`. -/
def start_order (transforms : List TransformProto) : List ℕ :=
  (execution_order transforms).reverse

/-- The order in which `process_bundle` finishes operations (source lines
1279-1282): `for op in self.ops.values(): op.finish()`. -/
def finish_order (transforms : List TransformProto) : List ℕ :=
  execution_order transforms

/-- The two-transform descriptor `source → sink`: transform `0` produces
pcollection `100`, transform `1` consumes it. -/
def twoNodeDescriptor : List TransformProto :=
  [{ id := 0, inputs := [], outputs := [100] },
    { id := 1, inputs := [100], outputs := [] }]

/-- The instruction bookkeeping of a `BundleProcessor` (source line 1105):
`current_instruction_id` is `None` between bundles. -/
structure BundleProcessorState where
  current_instruction_id : Option ℕ
deriving DecidableEq

/-- Modelled from the spec: `process_bundle(instruction_id)` "fails if
another instruction is already current" (spec §4.1).  In the source,
`process_bundle` stores the new id and immediately calls
`self.state_sampler.start()` (lines 1219-1222); the failure when a bundle is
already in flight is raised by the state sampler, whose module is not part of
the embedded file, and the `finally` block (lines 1295-1300) clears the
marker and stops the sampler on every exit path.  A successful run therefore
returns with the marker cleared. -/
def process_bundle (st : BundleProcessorState) (instruction_id : ℕ) :
    Except String BundleProcessorState :=
  if st.current_instruction_id.isSome then
    Except.error "state sampler already started: another instruction is already current"
  else
    Except.ok { current_instruction_id := none }

/-- A point lies in one of a list of half-open ranges. -/
def covered (l : List (ℤ × ℤ)) (p : ℤ) : Prop :=
  ∃ pr ∈ l, pr.1 ≤ p ∧ p < pr.2

/-- A list of half-open intervals is well-formed the way `RangeSet` keeps
them: each is non-empty, and each ends strictly before the next starts
(disjoint and non-adjacent, in ascending order). -/
def IntervalsOk (l : List (ℤ × ℤ)) : Prop :=
  (∀ pr ∈ l, pr.1 < pr.2) ∧ l.Pairwise (fun p q => p.2 < q.1)

/-- The `RangeSet` representation invariant: the two sorted lists have equal
length and pair up into a well-formed interval list. -/
def RangeSet.Inv (rs : RangeSet) : Prop :=
  rs.sorted_starts.length = rs.sorted_ends.length ∧ IntervalsOk rs.ranges

/-- The snap rule of `_compute_split` as the specification words it: when the
candidate `stop_index` is not an allowed split point, below the first allowed
point use the first; above the last use the last; otherwise let `previous` be
the nearest allowed point below and `next` the nearest above, and prefer
`previous` only when `index < previous` and
`stop_index - previous < next - stop_index`, else take `next`. -/
def snap_to_allowed_spec (allowed_split_points : List ℤ)
    (index stop_index : ℤ) : ℤ :=
  let sorted_points := List.insertionSort (· ≤ ·) allowed_split_points
  let below := sorted_points.filter (fun a => decide (a < stop_index))
  let above := sorted_points.filter (fun a => decide (stop_index < a))
  if below.isEmpty then sorted_points.headD 0
  else if above.isEmpty then sorted_points.getLastD 0
  else
    let previous := below.getLastD 0
    let next := above.headD 0
    if index < previous ∧ stop_index - previous < next - stop_index then
      previous
    else next

/-- A started `DataInputOperation` that has not yet emitted any element. -/
def example_input_op : DataInputOperation :=
  { index := -1, stop := none, started := true }

/-- The split request the concrete claims exercise: fraction 0.5, estimated
buffer size 10, no allowed-split-point restriction, no element splitting. -/
def example_split_request : SplitRequest :=
  { receiver_progress := none, receiver_try_split := fun _ => none,
    fraction_of_remainder := 1/2, total_buffer_size := 10,
    allowed_split_points := [] }

/-- The `CombineFn` of a running sum over `ℤ` (used as a concrete combine
function satisfying the algebraic contract). -/
def sum_combine_fn : CombineFn ℤ ℤ ℤ :=
  { create_accumulator := 0, add_input := fun a v => a + v,
    merge_accumulators := fun l => l.sum, extract_output := fun a => a }

theorem orderedInsert_middle (x : ℤ) (l1 l2 : List ℤ)
    (h1 : ∀ a ∈ l1, a < x) (h2 : ∀ b ∈ l2, x ≤ b) :
    List.orderedInsert (· ≤ ·) x (l1 ++ l2) = l1 ++ x :: l2 := by
  induction l1 with
  | nil =>
    cases l2 with
    | nil => rfl
    | cons b t =>
      simp only [List.nil_append, List.orderedInsert]
      rw [if_pos (h2 b (List.mem_cons_self b t))]
  | cons a t1 ih =>
    simp only [List.cons_append, List.orderedInsert]
    rw [if_neg (by have := h1 a (List.mem_cons_self a t1); omega)]
    rw [show t1.append l2 = t1 ++ l2 from rfl,
      ih (fun b hb => h1 b (List.mem_cons_of_mem a hb))]

theorem countP_take_drop {γ : Type} (Rel : γ → γ → Prop) (p : γ → Bool)
    (l : List γ) (hpw : l.Pairwise Rel)
    (hdcl : ∀ a ∈ l, ∀ b ∈ l, Rel a b → p b = true → p a = true) :
    (∀ a ∈ l.take (l.countP p), p a = true) ∧
    (∀ a ∈ l.drop (l.countP p), p a = false) := by
  induction l with
  | nil => simp
  | cons x t ih =>
    have hx : ∀ b ∈ t, Rel x b := fun b hb => List.rel_of_pairwise_cons hpw hb
    have ht : t.Pairwise Rel := List.Pairwise.of_cons hpw
    have hdcl' : ∀ a ∈ t, ∀ b ∈ t, Rel a b → p b = true → p a = true :=
      fun a ha b hb => hdcl a (List.mem_cons_of_mem x ha) b
        (List.mem_cons_of_mem x hb)
    obtain ⟨iht, ihd⟩ := ih ht hdcl'
    by_cases px : p x = true
    · rw [List.countP_cons_of_pos p t px]
      constructor
      · intro a ha
        rw [List.take_succ_cons] at ha
        rcases List.mem_cons.mp ha with h | h
        · rw [h]; exact px
        · exact iht a h
      · intro a ha
        rw [List.drop_succ_cons] at ha
        exact ihd a ha
    · have ht0 : t.countP p = 0 := by
        rw [List.countP_eq_zero]
        intro b hb hpb
        exact px (hdcl x (List.mem_cons_self x t) b (List.mem_cons_of_mem x hb)
          (hx b hb) hpb)
      rw [List.countP_cons_of_neg p t px, ht0]
      constructor
      · intro a ha
        simp at ha
      · intro a ha
        rw [List.drop_zero] at ha
        rcases List.mem_cons.mp ha with h | h
        · rw [h]; exact Bool.eq_false_iff.mpr px
        · by_cases pa : p a = true
          · exact absurd ((List.countP_eq_zero).mp ht0 a h pa) (by simp)
          · exact Bool.eq_false_iff.mpr pa




theorem countP_eq_of_pos_neg {γ : Type} (p : γ → Bool) (l : List γ) (i : ℕ)
    (hi : i ≤ l.length)
    (hpos : ∀ i' (h : i' < l.length), i' < i → p l[i'] = true)
    (hneg : ∀ i' (h : i' < l.length), i ≤ i' → p l[i'] = false) :
    l.countP p = i := by
  have hsplit : l = l.take i ++ l.drop i := (List.take_append_drop i l).symm
  rw [hsplit, List.countP_append]
  have h1 : (l.take i).countP p = (l.take i).length := by
    rw [List.countP_eq_length]
    intro a ha
    obtain ⟨i', hi', ha'⟩ := List.mem_iff_getElem.mp ha
    have hlt : i' < i := by
      have := hi'
      simp only [List.length_take] at this
      omega
    have hEq : (l.take i)[i'] = l[i'] := List.getElem_take l
    rw [← ha', hEq]
    exact hpos i' (by omega) hlt
  have h2 : (l.drop i).countP p = 0 := by
    rw [List.countP_eq_zero]
    intro a ha hpa
    obtain ⟨i', hi', ha'⟩ := List.mem_iff_getElem.mp ha
    have hb : i + i' < l.length := by
      have := hi'
      simp only [List.length_drop] at this
      omega
    have hEq : a = l[i + i'] := by
      rw [← ha']
      exact List.getElem_drop l
    rw [hEq, hneg (i + i') hb (by omega)] at hpa
    exact absurd hpa (by simp)
  rw [h1, h2, List.length_take]
  omega

theorem ranges_map_fst (rs : RangeSet)
    (hlen : rs.sorted_starts.length = rs.sorted_ends.length) :
    rs.ranges.map Prod.fst = rs.sorted_starts :=
  List.map_fst_zip _ _ (le_of_eq hlen)

theorem ranges_map_snd (rs : RangeSet)
    (hlen : rs.sorted_starts.length = rs.sorted_ends.length) :
    rs.ranges.map Prod.snd = rs.sorted_ends :=
  List.map_snd_zip _ _ (le_of_eq hlen.symm)

theorem ranges_length (rs : RangeSet)
    (hlen : rs.sorted_starts.length = rs.sorted_ends.length) :
    rs.ranges.length = rs.sorted_starts.length := by
  unfold RangeSet.ranges
  rw [List.length_zip]
  omega

theorem contains_iff_covered (rs : RangeSet) (hInv : rs.Inv) (p : ℤ) :
    rs.contains p ↔ covered rs.ranges p := by
  obtain ⟨hlen, hv, hpw⟩ := hInv
  have hmapf := ranges_map_fst rs hlen
  have hmaps := ranges_map_snd rs hlen
  have hll := ranges_length rs hlen
  set l := rs.ranges with hl
  have hposrel := List.pairwise_iff_getElem.mp hpw
  have hj : bisect_left rs.sorted_starts p =
      l.countP (fun pr => decide (pr.1 < p)) := by
    unfold bisect_left
    rw [← hmapf, List.countP_map]
    rfl
  have hdecomp := countP_take_drop (fun a b => a.2 < b.1)
    (fun pr => decide (pr.1 < p)) l hpw
    (fun a ha b hb hab hpb => by
      have hva := hv a ha
      simp only [decide_eq_true_eq] at *
      omega)
  set j := l.countP (fun pr => decide (pr.1 < p)) with hjdef
  have hjle : j ≤ l.length := List.countP_le_length _
  have hgetf : ∀ (i : ℕ) (h : i < l.length), rs.sorted_starts.getD i 0 = l[i].1 := by
    intro i h
    rw [← hmapf, List.getD_eq_getElem _ _ (by simpa using h)]
    simp
  have hgets : ∀ (i : ℕ) (h : i < l.length), rs.sorted_ends.getD i 0 = l[i].2 := by
    intro i h
    rw [← hmaps, List.getD_eq_getElem _ _ (by simpa using h)]
    simp
  constructor
  · intro hc
    unfold RangeSet.contains at hc
    rw [hj] at hc
    rcases hc with ⟨hjlt, hsj⟩ | ⟨hjpos, hej⟩
    · -- starts[j] = p
      have hjl : j < l.length := by omega
      rw [hgetf j hjl] at hsj
      have hvj := hv l[j] (List.getElem_mem hjl)
      exact ⟨l[j], List.getElem_mem hjl, by omega, by omega⟩
    · -- ends[j-1] > p
      have hjl : j - 1 < l.length := by omega
      rw [hgets (j-1) hjl] at hej
      have hmem : l[j-1] ∈ l.take j := by
        rw [List.mem_iff_getElem]
        exact ⟨j - 1, by rw [List.length_take]; omega, List.getElem_take l⟩
      have h1 := hdecomp.1 _ hmem
      simp only [decide_eq_true_eq] at h1
      exact ⟨l[j-1], List.getElem_mem hjl, by omega, hej⟩
  · rintro ⟨pr, hmem, hle, hlt⟩
    obtain ⟨i, hi, hpr⟩ := List.mem_iff_getElem.mp hmem
    subst hpr
    unfold RangeSet.contains
    rw [hj]
    rcases eq_or_lt_of_le hle with heq | hlt1
    · -- l[i].1 = p : insertion point is i, branch 1
      have hji : j = i := by
        rw [hjdef]
        apply countP_eq_of_pos_neg _ _ _ (le_of_lt hi)
        · intro i' h hi'
          have hr := hposrel i' i h hi hi'
          have hvi := hv l[i'] (List.getElem_mem h)
          simp only [decide_eq_true_eq]
          omega
        · intro i' h hi'
          rcases eq_or_lt_of_le hi' with h1 | h1
          · simp only [decide_eq_false_iff_not, not_lt]
            have hEq : l[i'] = l[i] := by
              congr 1
              omega
            rw [hEq]
            omega
          · have hr := hposrel i i' hi h h1
            simp only [decide_eq_false_iff_not, not_lt]
            omega
      left
      refine ⟨by omega, ?_⟩
      rw [hji, hgetf i hi]
      exact heq
    · -- l[i].1 < p : insertion point is i + 1, branch 2
      have hji : j = i + 1 := by
        rw [hjdef]
        apply countP_eq_of_pos_neg _ _ _ (by omega)
        · intro i' h hi'
          rcases Nat.lt_succ_iff_lt_or_eq.mp hi' with h1 | h1
          · have hr := hposrel i' i h hi h1
            have hvi := hv l[i'] (List.getElem_mem h)
            simp only [decide_eq_true_eq]
            omega
          · subst h1
            simp only [decide_eq_true_eq]
            omega
        · intro i' h hi'
          have hr := hposrel i i' hi h (by omega)
          simp only [decide_eq_false_iff_not, not_lt]
          omega
      right
      refine ⟨by omega, ?_⟩
      have hsub : j - 1 = i := by omega
      rw [hsub, hgets i hi]
      omega

theorem covered_append (l1 l2 : List (ℤ × ℤ)) (p : ℤ) :
    covered (l1 ++ l2) p ↔ covered l1 p ∨ covered l2 p := by
  unfold covered
  constructor
  · rintro ⟨pr, hmem, h⟩
    rcases List.mem_append.mp hmem with h1 | h1
    · exact Or.inl ⟨pr, h1, h⟩
    · exact Or.inr ⟨pr, h1, h⟩
  · rintro (⟨pr, hmem, h⟩ | ⟨pr, hmem, h⟩)
    · exact ⟨pr, List.mem_append_left _ hmem, h⟩
    · exact ⟨pr, List.mem_append_right _ hmem, h⟩

theorem covered_cons (x : ℤ × ℤ) (l : List (ℤ × ℤ)) (p : ℤ) :
    covered (x :: l) p ↔ (x.1 ≤ p ∧ p < x.2) ∨ covered l p := by
  unfold covered
  constructor
  · rintro ⟨pr, hmem, h⟩
    rcases List.mem_cons.mp hmem with h1 | h1
    · subst h1; exact Or.inl h
    · exact Or.inr ⟨pr, h1, h⟩
  · rintro (h | ⟨pr, hmem, h⟩)
    · exact ⟨x, List.mem_cons_self x l, h⟩
    · exact ⟨pr, List.mem_cons_of_mem x hmem, h⟩

theorem covered_nil (p : ℤ) : ¬ covered [] p := by
  rintro ⟨pr, hmem, h⟩
  simp at hmem

theorem oi_append (x : ℤ) (l1 : List ℤ) (h1 : ∀ a ∈ l1, a < x) :
    List.orderedInsert (· ≤ ·) x l1 = l1 ++ [x] := by
  have := orderedInsert_middle x l1 [] h1 (by simp)
  simpa using this

theorem oi_cons (x : ℤ) (l2 : List ℤ) (h2 : ∀ b ∈ l2, x ≤ b) :
    List.orderedInsert (· ≤ ·) x l2 = x :: l2 := by
  have := orderedInsert_middle x [] l2 (by simp) h2
  simpa using this

theorem mem_take_getElem {γ : Type} (l : List γ) (n i : ℕ) (hi : i < n)
    (h : i < l.length) : l[i] ∈ l.take n := by
  rw [List.mem_iff_getElem]
  exact ⟨i, by rw [List.length_take]; omega, List.getElem_take l⟩

theorem mem_drop_getElem {γ : Type} (l : List γ) (n i : ℕ)
    (h : n + i < l.length) : l[n + i] ∈ l.drop n := by
  rw [List.mem_iff_getElem]
  exact ⟨i, by rw [List.length_drop]; omega, List.getElem_drop l⟩

theorem cross_take_drop {γ : Type} {R : γ → γ → Prop} {l : List γ}
    (hpw : l.Pairwise R) (n : ℕ) :
    ∀ a ∈ l.take n, ∀ b ∈ l.drop n, R a b := by
  have h : List.Pairwise R (l.take n ++ l.drop n) := by
    rw [List.take_append_drop]
    exact hpw
  exact (List.pairwise_append.mp h).2.2

theorem starts_getD (rs : RangeSet)
    (hlen : rs.sorted_starts.length = rs.sorted_ends.length)
    (i : ℕ) (h : i < rs.ranges.length) :
    rs.sorted_starts.getD i 0 = (rs.ranges)[i].1 := by
  have hmapf := ranges_map_fst rs hlen
  have hll := ranges_length rs hlen
  rw [← hmapf, List.getD_eq_getElem _ _ (by simpa using h)]
  simp

theorem ends_getD (rs : RangeSet)
    (hlen : rs.sorted_starts.length = rs.sorted_ends.length)
    (i : ℕ) (h : i < rs.ranges.length) :
    rs.sorted_ends.getD i 0 = (rs.ranges)[i].2 := by
  have hmaps := ranges_map_snd rs hlen
  have hll := ranges_length rs hlen
  rw [← hmaps, List.getD_eq_getElem _ _ (by simpa [← hlen] using h)]
  simp

theorem zip_map_fst_snd_self (l : List (ℤ × ℤ)) :
    (l.map Prod.fst).zip (l.map Prod.snd) = l := by
  induction l with
  | nil => rfl
  | cons x t ih => simp [ih]

theorem add_spec (rs : RangeSet) (hInv : rs.Inv) (s e : ℤ) :
    (rs.add s e).Inv ∧
    ∀ p, (covered (rs.add s e).ranges p ↔ (s ≤ p ∧ p < e) ∨ covered rs.ranges p) := by
  by_cases hse : s ≥ e
  · have hid : rs.add s e = rs := by
      unfold RangeSet.add
      rw [if_pos hse]
    rw [hid]
    refine ⟨hInv, fun p => ⟨Or.inr, ?_⟩⟩
    rintro (⟨h1, h2⟩ | h)
    · omega
    · exact h
  push_neg at hse
  obtain ⟨hlen, hv, hpw⟩ := hInv
  have hmapf := ranges_map_fst rs hlen
  have hmaps := ranges_map_snd rs hlen
  have hll := ranges_length rs hlen
  set l := rs.ranges with hl
  have hposrel := List.pairwise_iff_getElem.mp hpw
  have hm : bisect_left rs.sorted_ends s =
      l.countP (fun pr => decide (pr.2 < s)) := by
    unfold bisect_left
    rw [← hmaps, List.countP_map]
    rfl
  have hM : bisect_right rs.sorted_starts e =
      l.countP (fun pr => decide (pr.1 ≤ e)) := by
    unfold bisect_right
    rw [← hmapf, List.countP_map]
    rfl
  set m := l.countP (fun pr => decide (pr.2 < s)) with hmdef
  set M := l.countP (fun pr => decide (pr.1 ≤ e)) with hMdef
  have hmle : m ≤ l.length := List.countP_le_length _
  have hMle : M ≤ l.length := List.countP_le_length _
  have hd1 := countP_take_drop (fun a b => a.2 < b.1)
    (fun pr => decide (pr.2 < s)) l hpw
    (fun a ha b hb hab hpb => by
      have hvb := hv b hb
      simp only [decide_eq_true_eq] at *
      omega)
  have hd2 := countP_take_drop (fun a b => a.2 < b.1)
    (fun pr => decide (pr.1 ≤ e)) l hpw
    (fun a ha b hb hab hpb => by
      have hva := hv a ha
      simp only [decide_eq_true_eq] at *
      omega)
  have hD1 : ∀ pr ∈ l.take m, pr.2 < s := fun pr h => by
    have := hd1.1 pr h
    simpa using this
  have hD2 : ∀ pr ∈ l.drop m, s ≤ pr.2 := fun pr h => by
    have := hd1.2 pr h
    simp only [decide_eq_false_iff_not, not_lt] at this
    exact this
  have hD3 : ∀ pr ∈ l.take M, pr.1 ≤ e := fun pr h => by
    have := hd2.1 pr h
    simpa using this
  have hD4 : ∀ pr ∈ l.drop M, e < pr.1 := fun pr h => by
    have := hd2.2 pr h
    simp only [decide_eq_false_iff_not, not_le] at this
    exact this
  by_cases hbranch : m ≥ rs.sorted_starts.length ∨ M = 0
  · -- the new range is beyond any current ranges
    have hadd : rs.add s e =
        { sorted_starts := List.orderedInsert (· ≤ ·) s rs.sorted_starts,
          sorted_ends := List.orderedInsert (· ≤ ·) e rs.sorted_ends } := by
      unfold RangeSet.add
      rw [if_neg (by omega)]
      simp only [hm, hM]
      rw [if_pos hbranch]
    rcases hbranch with hmB | hMB
    · -- all existing ranges end before s
      have hml : m = l.length := by omega
      have hallE : ∀ pr ∈ l, pr.2 < s := by
        intro pr h
        apply hD1
        rw [hml, List.take_length]
        exact h
      have hS : List.orderedInsert (· ≤ ·) s rs.sorted_starts =
          rs.sorted_starts ++ [s] := by
        apply oi_append
        intro a ha
        rw [← hmapf] at ha
        obtain ⟨pr, hpr, rfl⟩ := List.mem_map.mp ha
        have := hallE pr hpr
        have := hv pr hpr
        omega
      have hE : List.orderedInsert (· ≤ ·) e rs.sorted_ends =
          rs.sorted_ends ++ [e] := by
        apply oi_append
        intro a ha
        rw [← hmaps] at ha
        obtain ⟨pr, hpr, rfl⟩ := List.mem_map.mp ha
        have := hallE pr hpr
        omega
      have hranges : (rs.add s e).ranges = l ++ [(s, e)] := by
        rw [hadd]
        unfold RangeSet.ranges
        simp only [hS, hE]
        rw [List.zip_append hlen]
        rfl
      constructor
      · refine ⟨?_, ?_, ?_⟩
        · rw [hadd]
          simp only [hS, hE, List.length_append, List.length_singleton]
          omega
        · show ∀ pr ∈ (rs.add s e).ranges, pr.1 < pr.2
          rw [hranges]
          intro pr h
          rcases List.mem_append.mp h with h1 | h1
          · exact hv pr h1
          · simp only [List.mem_singleton] at h1
            subst h1
            exact hse
        · show List.Pairwise _ (rs.add s e).ranges
          rw [hranges, List.pairwise_append]
          refine ⟨hpw, by simp, ?_⟩
          intro a ha b hb
          simp only [List.mem_singleton] at hb
          subst hb
          exact hallE a ha
      · intro p
        rw [hranges, covered_append, covered_cons]
        simp only [covered_nil]
        constructor
        · rintro (h | h | h)
          · exact Or.inr h
          · exact Or.inl h
          · exact h.elim
        · rintro (h | h)
          · exact Or.inr (Or.inl h)
          · exact Or.inl h
    · -- all existing ranges start after e
      have hallS : ∀ pr ∈ l, e < pr.1 := by
        intro pr h
        apply hD4
        rw [hMB, List.drop_zero]
        exact h
      have hS : List.orderedInsert (· ≤ ·) s rs.sorted_starts =
          s :: rs.sorted_starts := by
        apply oi_cons
        intro a ha
        rw [← hmapf] at ha
        obtain ⟨pr, hpr, rfl⟩ := List.mem_map.mp ha
        have := hallS pr hpr
        omega
      have hE : List.orderedInsert (· ≤ ·) e rs.sorted_ends =
          e :: rs.sorted_ends := by
        apply oi_cons
        intro a ha
        rw [← hmaps] at ha
        obtain ⟨pr, hpr, rfl⟩ := List.mem_map.mp ha
        have h1 := hallS pr hpr
        have h2 := hv pr hpr
        omega
      have hranges : (rs.add s e).ranges = (s, e) :: l := by
        rw [hadd]
        unfold RangeSet.ranges
        simp only [hS, hE]
        rw [List.zip_cons_cons]
        rfl
      constructor
      · refine ⟨?_, ?_, ?_⟩
        · rw [hadd]
          simp only [hS, hE, List.length_cons]
          omega
        · show ∀ pr ∈ (rs.add s e).ranges, pr.1 < pr.2
          rw [hranges]
          intro pr h
          rcases List.mem_cons.mp h with h1 | h1
          · subst h1
            exact hse
          · exact hv pr h1
        · show List.Pairwise _ (rs.add s e).ranges
          rw [hranges, List.pairwise_cons]
          exact ⟨fun b hb => hallS b hb, hpw⟩
      · intro p
        rw [hranges, covered_cons]
  · -- the new range overlaps ranges[min_idx:max_idx]
    push_neg at hbranch
    obtain ⟨hmlt0, hM0⟩ := hbranch
    have hmlt : m < l.length := by omega
    have hM1 : 1 ≤ M := by omega
    have hM1lt : M - 1 < l.length := by omega
    have hFm2 : s ≤ l[m].2 := by
      apply hD2
      have : l[m] = l[m + 0] := by congr 1
      rw [this]
      exact mem_drop_getElem l m 0 (by omega)
    have hFM1 : l[M-1].1 ≤ e := hD3 _ (mem_take_getElem l M (M-1) (by omega) hM1lt)
    have hmM : m ≤ M := by
      by_contra hcon
      push_neg at hcon
      have hMlt : M < l.length := by omega
      have h1 : l[M].2 < s := hD1 _ (mem_take_getElem l m M hcon hMlt)
      have h2 : e < l[M].1 := by
        apply hD4
        have : l[M] = l[M + 0] := by congr 1
        rw [this]
        exact mem_drop_getElem l M 0 (by omega)
      have h3 := hv l[M] (List.getElem_mem hMlt)
      omega
    have hgdS : rs.sorted_starts.getD m 0 = l[m].1 :=
      starts_getD rs hlen m (by rw [← hl]; omega)
    have hgdE : rs.sorted_ends.getD (M-1) 0 = l[M-1].2 :=
      ends_getD rs hlen (M-1) (by rw [← hl]; omega)
    set ns := min s (l[m].1) with hns
    set ne := max e (l[M-1].2) with hne
    have hadd : rs.add s e =
        { sorted_starts := List.orderedInsert (· ≤ ·) ns
            (rs.sorted_starts.take m ++ rs.sorted_starts.drop M),
          sorted_ends := List.orderedInsert (· ≤ ·) ne
            (rs.sorted_ends.take m ++ rs.sorted_ends.drop M) } := by
      unfold RangeSet.add
      rw [if_neg (by omega)]
      simp only [hm, hM]
      rw [if_neg (by omega)]
      rw [hgdS, hgdE]
    -- the sorted-list pieces as interval-list pieces
    have hSt : rs.sorted_starts.take m = (l.take m).map Prod.fst := by
      rw [List.map_take, hmapf]
    have hSd : rs.sorted_starts.drop M = (l.drop M).map Prod.fst := by
      rw [List.map_drop, hmapf]
    have hEt : rs.sorted_ends.take m = (l.take m).map Prod.snd := by
      rw [List.map_take, hmaps]
    have hEd : rs.sorted_ends.drop M = (l.drop M).map Prod.snd := by
      rw [List.map_drop, hmaps]
    have hdropsub : l.drop M ⊆ l.drop m := by
      have : l.drop M = (l.drop m).drop (M - m) := by
        rw [List.drop_drop]
        congr 1
        omega
      rw [this]
      exact List.drop_subset _ _
    have hcrossm := cross_take_drop hpw m
    have hcrossM := cross_take_drop hpw M
    have hmemm : l[m] ∈ l.drop m := by
      have : l[m] = l[m + 0] := by congr 1
      rw [this]
      exact mem_drop_getElem l m 0 (by omega)
    have hmemM1 : l[M-1] ∈ l.take M := mem_take_getElem l M (M-1) (by omega) hM1lt
    have hOS : List.orderedInsert (· ≤ ·) ns
        (rs.sorted_starts.take m ++ rs.sorted_starts.drop M) =
        (l.take m).map Prod.fst ++ ns :: (l.drop M).map Prod.fst := by
      rw [hSt, hSd]
      apply orderedInsert_middle
      · intro a ha
        obtain ⟨pr, hpr, rfl⟩ := List.mem_map.mp ha
        have h1 := hD1 pr hpr
        have h2 := hv pr (List.take_subset m l hpr)
        have h3 := hcrossm pr hpr _ hmemm
        simp only [hns]
        omega
      · intro b hb
        obtain ⟨pr, hpr, rfl⟩ := List.mem_map.mp hb
        have h1 := hD4 pr hpr
        simp only [hns]
        omega
    have hOE : List.orderedInsert (· ≤ ·) ne
        (rs.sorted_ends.take m ++ rs.sorted_ends.drop M) =
        (l.take m).map Prod.snd ++ ne :: (l.drop M).map Prod.snd := by
      rw [hEt, hEd]
      apply orderedInsert_middle
      · intro a ha
        obtain ⟨pr, hpr, rfl⟩ := List.mem_map.mp ha
        have h1 := hD1 pr hpr
        simp only [hne]
        omega
      · intro b hb
        obtain ⟨pr, hpr, rfl⟩ := List.mem_map.mp hb
        have h1 := hD4 pr hpr
        have h2 := hv pr (List.drop_subset M l hpr)
        have h3 := hcrossM _ hmemM1 pr hpr
        simp only [hne]
        omega
    have hranges : (rs.add s e).ranges = l.take m ++ (ns, ne) :: l.drop M := by
      rw [hadd]
      unfold RangeSet.ranges
      simp only [hOS, hOE]
      rw [List.zip_append (by simp), List.zip_cons_cons, zip_map_fst_snd_self,
        zip_map_fst_snd_self]
    have hnsne : ns < ne := by
      simp only [hns, hne]
      omega
    constructor
    · refine ⟨?_, ?_, ?_⟩
      · rw [hadd]
        simp only [hOS, hOE, List.length_append, List.length_cons,
          List.length_map]
      · show ∀ pr ∈ (rs.add s e).ranges, pr.1 < pr.2
        rw [hranges]
        intro pr h
        rcases List.mem_append.mp h with h1 | h1
        · exact hv pr (List.take_subset m l h1)
        · rcases List.mem_cons.mp h1 with h2 | h2
          · subst h2
            exact hnsne
          · exact hv pr (List.drop_subset M l h2)
      · show List.Pairwise _ (rs.add s e).ranges
        rw [hranges, List.pairwise_append]
        refine ⟨List.Pairwise.sublist (List.take_sublist m l) hpw, ?_, ?_⟩
        · rw [List.pairwise_cons]
          refine ⟨?_, List.Pairwise.sublist (List.drop_sublist M l) hpw⟩
          intro b hb
          have h1 := hD4 b hb
          have h2 := hcrossM _ hmemM1 b hb
          simp only [hne]
          omega
        · intro a ha b hb
          rcases List.mem_cons.mp hb with h2 | h2
          · subst h2
            have h1 := hD1 a ha
            have h3 := hcrossm a ha _ hmemm
            simp only [hns]
            omega
          · exact hcrossm a ha b (hdropsub h2)
    · intro p
      rw [hranges, covered_append, covered_cons]
      constructor
      · rintro (h | h | h)
        · exact Or.inr ⟨h.choose, List.take_subset m l h.choose_spec.1,
            h.choose_spec.2⟩
        · -- p lies in the merged range
          simp only [hns, hne] at h
          by_cases hps : p < s
          · have hm1 : l[m].1 ≤ p := by omega
            exact Or.inr ⟨l[m], List.getElem_mem hmlt, hm1, by omega⟩
          · by_cases hpe : e ≤ p
            · have hm2 : p < l[M-1].2 := by omega
              exact Or.inr ⟨l[M-1], List.getElem_mem hM1lt, by omega, hm2⟩
            · exact Or.inl ⟨by omega, by omega⟩
        · exact Or.inr ⟨h.choose, List.drop_subset M l h.choose_spec.1,
            h.choose_spec.2⟩
      · rintro (⟨h1, h2⟩ | ⟨pr, hmem, hc1, hc2⟩)
        · refine Or.inr (Or.inl ⟨?_, ?_⟩)
          · simp only [hns]
            omega
          · simp only [hne]
            omega
        · obtain ⟨i, hi, rfl⟩ := List.mem_iff_getElem.mp hmem
          by_cases him : i < m
          · exact Or.inl ⟨l[i], mem_take_getElem l m i him hi, hc1, hc2⟩
          · by_cases hiM : M ≤ i
            · refine Or.inr (Or.inr ⟨l[i], ?_, hc1, hc2⟩)
              have : l[i] = l[M + (i - M)] := by congr 1; omega
              rw [this]
              exact mem_drop_getElem l M (i - M) (by omega)
            · -- m ≤ i < M : the old range is inside the merged one
              refine Or.inr (Or.inl ⟨?_, ?_⟩)
              · have hns1 : l[m].1 ≤ l[i].1 := by
                  rcases eq_or_lt_of_le (not_lt.mp him) with h1 | h1
                  · subst h1
                    omega
                  · have hr := hposrel m i hmlt hi h1
                    have := hv l[m] (List.getElem_mem hmlt)
                    omega
                simp only [hns]
                omega
              · have hne1 : l[i].2 ≤ l[M-1].2 := by
                  rcases eq_or_lt_of_le (show i ≤ M - 1 by omega) with h1 | h1
                  · subst h1
                    omega
                  · have hr := hposrel i (M-1) hi hM1lt h1
                    have := hv l[M-1] (List.getElem_mem hM1lt)
                    omega
                simp only [hne]
                omega

theorem empty_inv : RangeSet.empty.Inv := by
  refine ⟨rfl, ?_, ?_⟩
  · intro pr h
    simp [RangeSet.empty, RangeSet.ranges] at h
  · simp [RangeSet.empty, RangeSet.ranges]

theorem foldl_add_spec (adds : List (ℤ × ℤ)) :
    ∀ (rs : RangeSet), rs.Inv →
    (adds.foldl (fun r a => r.add a.1 a.2) rs).Inv ∧
    ∀ p, (covered (adds.foldl (fun r a => r.add a.1 a.2) rs).ranges p ↔
      covered rs.ranges p ∨ ∃ a ∈ adds, a.1 ≤ p ∧ p < a.2) := by
  induction adds with
  | nil =>
    intro rs hInv
    refine ⟨hInv, fun p => ?_⟩
    simp
  | cons a rest ih =>
    intro rs hInv
    obtain ⟨hInv1, hcov1⟩ := add_spec rs hInv a.1 a.2
    obtain ⟨hInv2, hcov2⟩ := ih (rs.add a.1 a.2) hInv1
    refine ⟨by simpa using hInv2, fun p => ?_⟩
    rw [List.foldl_cons]
    rw [hcov2 p, hcov1 p]
    constructor
    · rintro ((h | h) | h)
      · exact Or.inr ⟨a, List.mem_cons_self a rest, h⟩
      · exact Or.inl h
      · obtain ⟨b, hb, hcb⟩ := h
        exact Or.inr ⟨b, List.mem_cons_of_mem a hb, hcb⟩
    · rintro (h | ⟨b, hb, hcb⟩)
      · exact Or.inl (Or.inr h)
      · rcases List.mem_cons.mp hb with h1 | h1
        · subst h1
          exact Or.inl (Or.inl hcb)
        · exact Or.inr ⟨b, h1, hcb⟩

/-- C5: after any sequence of `RangeSet.add` calls starting from the empty
`RangeSet`, the stored ranges are pairwise disjoint and non-adjacent (one
range ends strictly before the other starts), and `__contains__` reports a
point covered exactly when some added range `[start, end)` contains it. -/
theorem c5_range_set_disjoint_and_membership (adds : List (ℤ × ℤ)) (p : ℤ) :
    ((RangeSet.addAll adds).ranges.Pairwise
      (fun a b => a.2 < b.1 ∨ b.2 < a.1)) ∧
    ((RangeSet.addAll adds).contains p ↔ ∃ a ∈ adds, a.1 ≤ p ∧ p < a.2) := by
  obtain ⟨hInv, hcov⟩ := foldl_add_spec adds RangeSet.empty empty_inv
  unfold RangeSet.addAll
  constructor
  · exact List.Pairwise.imp (fun h => Or.inl h) hInv.2.2
  · rw [contains_iff_covered _ hInv, hcov p]
    constructor
    · rintro (h | h)
      · exact absurd h (by
          simp [RangeSet.empty, RangeSet.ranges, covered])
      · exact h
    · exact Or.inr

theorem snap_to_allowed_eq_spec (allowed : List ℤ) (index stop_index : ℤ)
    (h1 : allowed ≠ []) (h2 : stop_index ∉ allowed) :
    snap_to_allowed allowed index stop_index =
      snap_to_allowed_spec allowed index stop_index := by
  unfold snap_to_allowed snap_to_allowed_spec
  simp only []
  set pts := List.insertionSort (· ≤ ·) allowed with hpts
  have hperm : pts.Perm allowed := List.perm_insertionSort (· ≤ ·) allowed
  have hne : pts ≠ [] := by
    intro h
    rw [h] at hperm
    exact h1 (hperm.symm.eq_nil)
  have hnotmem : stop_index ∉ pts := fun h => h2 (hperm.mem_iff.mp h)
  have hpw : pts.Pairwise (· ≤ ·) :=
    List.sorted_insertionSort (· ≤ ·) allowed
  have hd := countP_take_drop (· ≤ ·) (fun a => decide (a ≤ stop_index)) pts
    hpw (fun a ha b hb hab hpb => by
      simp only [decide_eq_true_eq] at *
      omega)
  set k := pts.countP (fun a => decide (a ≤ stop_index)) with hkdef
  have hkb : bisect_right pts stop_index = k := rfl
  have hkle : k ≤ pts.length := List.countP_le_length _
  have htake : ∀ a ∈ pts.take k, a < stop_index := by
    intro a ha
    have h3 := hd.1 a ha
    simp only [decide_eq_true_eq] at h3
    have : a ≠ stop_index := fun hEq =>
      hnotmem (hEq ▸ List.take_subset k pts ha)
    omega
  have hdrop : ∀ a ∈ pts.drop k, stop_index < a := by
    intro a ha
    have h3 := hd.2 a ha
    simp only [decide_eq_false_iff_not, not_le] at h3
    exact h3
  have hbelow : pts.filter (fun a => decide (a < stop_index)) = pts.take k := by
    conv_lhs => rw [← List.take_append_drop k pts]
    rw [List.filter_append]
    rw [List.filter_eq_self.mpr (fun a ha => by
      simp only [decide_eq_true_eq]
      exact htake a ha)]
    rw [List.filter_eq_nil.mpr (fun a ha => by
      simp only [decide_eq_true_eq, not_lt]
      have := hdrop a ha
      omega)]
    rw [List.append_nil]
  have habove : pts.filter (fun a => decide (stop_index < a)) = pts.drop k := by
    conv_lhs => rw [← List.take_append_drop k pts]
    rw [List.filter_append]
    rw [List.filter_eq_nil.mpr (fun a ha => by
      simp only [decide_eq_true_eq, not_lt]
      have := htake a ha
      omega)]
    rw [List.filter_eq_self.mpr (fun a ha => by
      simp only [decide_eq_true_eq]
      exact hdrop a ha)]
    rw [List.nil_append]
  rw [hkb, hbelow, habove]
  have hbe : ((pts.take k).isEmpty = true) ↔ k = 0 := by
    rw [List.isEmpty_iff, List.take_eq_nil_iff]
    constructor
    · rintro (h | h)
      · exact h
      · exact absurd h hne
    · exact Or.inl
  have hae : ((pts.drop k).isEmpty = true) ↔ k = pts.length := by
    rw [List.isEmpty_iff, List.drop_eq_nil_iff]
    omega
  by_cases hk0 : k = 0
  · rw [if_pos hk0, if_pos (hbe.mpr hk0)]
  · rw [if_neg hk0, if_neg (fun h => hk0 (hbe.mp h))]
    by_cases hkl : k = pts.length
    · rw [if_pos hkl, if_pos (hae.mpr hkl)]
    · rw [if_neg hkl, if_neg (fun h => hkl (hae.mp h))]
      have hprev : (pts.take k).getLastD 0 = pts.getD (k - 1) 0 := by
        rw [List.getLastD_eq_getLast?, List.getLast?_eq_getElem?,
          List.getD_eq_getElem?_getD]
        have hlt : k - 1 < pts.length := by omega
        rw [List.length_take]
        have h5 : min k pts.length - 1 = k - 1 := by omega
        rw [h5]
        have h6 : (pts.take k)[k-1]? = pts[k-1]? := by
          rw [List.getElem?_eq_getElem (by rw [List.length_take]; omega),
            List.getElem?_eq_getElem hlt]
          congr 1
          exact List.getElem_take pts
        rw [h6]
      have hnext : (pts.drop k).headD 0 = pts.getD k 0 := by
        rw [List.headD_eq_head?, List.head?_drop, List.getD_eq_getElem?_getD]
      rw [hprev, hnext]

theorem element_split_attempt_residual {α β : Type} (index : ℤ)
    (progress keep : ℚ) (allowed : List ℤ) (ts : ℚ → Option (List α × List β))
    (r : ℤ × List α × List β × ℤ)
    (h : element_split_attempt index progress keep allowed ts = some r) :
    r.2.2.2 = index + 1 := by
  unfold element_split_attempt at h
  split at h
  · simp only [] at h
    split at h
    · split at h
      next p rr heq =>
        injection h with h'
        rw [← h']
      next => exact absurd h (by simp)
    · exact absurd h (by simp)
  · exact absurd h (by simp)

theorem compute_split_residual_start {α β : Type} (index : ℤ) (progress : ℚ)
    (stop : Option ℤ) (fr : ℚ) (tbs : ℤ) (allowed : List ℤ)
    (ts : ℚ → Option (List α × List β)) (r : ℤ × List α × List β × ℤ)
    (h : compute_split index progress stop fr tbs allowed ts = some r) :
    r.2.2.2 = index + 1 ∨ (index < r.2.2.2 ∧ ltStop r.2.2.2 stop) := by
  unfold compute_split at h
  simp only [] at h
  split at h
  next r0 heq =>
    injection h with h'
    subst h'
    exact Or.inl (element_split_attempt_residual _ _ _ _ _ _ heq)
  next heq =>
    split at h
    next hguard =>
      injection h with h'
      subst h'
      exact Or.inr hguard
    next => exact absurd h (by simp)

theorem try_split_none_unchanged {α β : Type} (op : DataInputOperation)
    (rp : Option ℚ) (rts : ℚ → Option (List α × List β)) (fr : ℚ) (tbs : ℤ)
    (allowed : List ℤ)
    (h : (op.try_split rp rts fr tbs allowed).2 = none) :
    (op.try_split rp rts fr tbs allowed).1 = op := by
  by_cases hs : op.started
  · cases hcs : compute_split op.index
        (data_input_current_progress op.index rp) op.stop fr tbs allowed
        rts with
    | some r => simp [DataInputOperation.try_split, hs, hcs] at h
    | none => simp [DataInputOperation.try_split, hs, hcs]
  · simp [DataInputOperation.try_split, hs]

theorem try_split_some_spec {α β : Type} (op : DataInputOperation)
    (rp : Option ℚ) (rts : ℚ → Option (List α × List β)) (fr : ℚ) (tbs : ℤ)
    (allowed : List ℤ) (r : ℤ × List α × List β × ℤ)
    (h : (op.try_split rp rts fr tbs allowed).2 = some r)
    (h0 : op.indexLtStop) :
    (op.try_split rp rts fr tbs allowed).1 =
      { op with stop := some r.2.2.2 } ∧
    op.index < r.2.2.2 ∧ stopLE (some r.2.2.2) op.stop ∧
    (r.2.2.2 = op.index + 1 ∨ ltStop r.2.2.2 op.stop) := by
  by_cases hs : op.started
  · cases hcs : compute_split op.index
        (data_input_current_progress op.index rp) op.stop fr tbs allowed
        rts with
    | some r0 =>
      have hr0 : r0 = r := by
        simp [DataInputOperation.try_split, hs, hcs] at h
        exact h
      subst hr0
      have hr := compute_split_residual_start _ _ _ _ _ _ _ _ hcs
      unfold DataInputOperation.indexLtStop ltStop at h0
      have hlt : op.index < r0.2.2.2 := by
        rcases hr with h1 | h2
        · omega
        · exact h2.1
      refine ⟨by simp [DataInputOperation.try_split, hs, hcs], hlt, ?_,
        hr.imp id And.right⟩
      unfold stopLE
      cases hstop : op.stop with
      | none => trivial
      | some s =>
        rw [hstop] at h0 hr
        simp only [ltStop] at hr
        rcases hr with h1 | h2
        · omega
        · omega
    | none => simp [DataInputOperation.try_split, hs, hcs] at h
  · simp [DataInputOperation.try_split, hs] at h

theorem process_encoded_nil {α : Type} (op : DataInputOperation) :
    op.process_encoded ([] : List α) = (op, []) := rfl

theorem process_encoded_cons_stop {α : Type} (op : DataInputOperation)
    (v : α) (rest : List α) (hs : op.stopHit) :
    op.process_encoded (v :: rest) = (op, []) := by
  simp [DataInputOperation.process_encoded, hs]

theorem process_encoded_cons_go {α : Type} (op : DataInputOperation)
    (v : α) (rest : List α) (hs : ¬ op.stopHit) :
    op.process_encoded (v :: rest) =
      ((({ op with index := op.index + 1 }).process_encoded rest).1,
        (op.index + 1, v) ::
          (({ op with index := op.index + 1 }).process_encoded rest).2) := by
  simp [DataInputOperation.process_encoded, hs]

theorem process_encoded_spec {α : Type} (k : ℤ) (buffer : List α) :
    ∀ (op : DataInputOperation), op.stop = some k → op.index < k →
    (op.process_encoded buffer).1.stop = some k ∧
    (op.process_encoded buffer).1.started = op.started ∧
    (op.process_encoded buffer).1.index < k ∧
    (∀ p ∈ (op.process_encoded buffer).2, op.index < p.1 ∧ p.1 < k) ∧
    (op.process_encoded buffer).2.map Prod.snd =
      buffer.take (k - 1 - op.index).toNat := by
  induction buffer with
  | nil =>
    intro op h1 h2
    rw [process_encoded_nil]
    exact ⟨h1, rfl, h2, by simp, by simp⟩
  | cons v rest ih =>
    intro op h1 h2
    by_cases hs : op.stopHit
    · have hk : op.index = k - 1 := by
        unfold DataInputOperation.stopHit at hs
        rw [h1] at hs
        exact hs
      have htake : (k - 1 - op.index).toNat = 0 := by omega
      rw [process_encoded_cons_stop op v rest hs]
      exact ⟨h1, rfl, h2, by simp, by simp [htake]⟩
    · have hk : op.index ≠ k - 1 := by
        unfold DataInputOperation.stopHit at hs
        rw [h1] at hs
        exact hs
      have h2' : op.index + 1 < k := by omega
      obtain ⟨ih1, ih2, ih3, ih4, ih5⟩ :=
        ih { op with index := op.index + 1 } (by simpa using h1) h2'
      have htake : (k - 1 - op.index).toNat =
          (k - 1 - (op.index + 1)).toNat + 1 := by omega
      rw [process_encoded_cons_go op v rest hs]
      refine ⟨ih1, ih2, ih3, ?_, ?_⟩
      · intro p hp
        rcases List.mem_cons.mp hp with hp1 | hp1
        · subst hp1
          exact ⟨by omega, by omega⟩
        · have h4 := ih4 p hp1
          have hi : ({ op with index := op.index + 1 } :
              DataInputOperation).index = op.index + 1 := rfl
          rw [hi] at h4
          exact ⟨by omega, h4.2⟩
      · rw [List.map_cons, htake, List.take_succ_cons]
        have hi : ({ op with index := op.index + 1 } :
            DataInputOperation).index = op.index + 1 := rfl
        rw [hi] at ih5
        rw [ih5]

theorem process_sequence_spec {α : Type} (k : ℤ) (buffers : List (List α)) :
    ∀ (op : DataInputOperation), op.stop = some k → op.index < k →
    (op.process_sequence buffers).1.stop = some k ∧
    (op.process_sequence buffers).1.index < k ∧
    (∀ p ∈ (op.process_sequence buffers).2, p.1 < k) := by
  induction buffers with
  | nil =>
    intro op h1 h2
    simpa [DataInputOperation.process_sequence] using ⟨h1, h2⟩
  | cons b rest ih =>
    intro op h1 h2
    obtain ⟨e1, _, e3, e4, _⟩ := process_encoded_spec k b op h1 h2
    obtain ⟨s1, s2, s3⟩ := ih (op.process_encoded b).1 e1 e3
    refine ⟨?_, ?_, ?_⟩
    · simpa [DataInputOperation.process_sequence] using s1
    · simpa [DataInputOperation.process_sequence] using s2
    · intro p hp
      simp only [DataInputOperation.process_sequence, List.mem_append] at hp
      rcases hp with hp | hp
      · exact (e4 p hp).2
      · exact s3 p hp

theorem compute_split_ten_no_allowed :
    compute_split (α := Unit) (β := Unit) (-1) 1 none (1/2) 10 []
      (fun _ => none) = some (4, [], [], 5) := by
  unfold compute_split clamp_total_buffer_size element_split_attempt
    boundary_stop_index
  norm_num [pyRound, ltStop]

theorem compute_split_ten_allowed_two_seven :
    compute_split (α := Unit) (β := Unit) (-1) 1 none (1/2) 10 [2, 7]
      (fun _ => none) = some (6, [], [], 7) := by
  unfold compute_split clamp_total_buffer_size element_split_attempt
    boundary_stop_index
  norm_num [pyRound, ltStop, snap_to_allowed, bisect_right,
    List.insertionSort, List.orderedInsert]
  decide

theorem stopLE_refl (x : Option ℤ) : stopLE x x := by
  cases x with
  | none => trivial
  | some a => exact le_refl a

theorem try_split_step (op : DataInputOperation) (h0 : op.indexLtStop)
    (req : SplitRequest) :
    stopLE ((op.try_split req.receiver_progress req.receiver_try_split
        req.fraction_of_remainder req.total_buffer_size
        req.allowed_split_points).1).stop op.stop ∧
    ((op.try_split req.receiver_progress req.receiver_try_split
        req.fraction_of_remainder req.total_buffer_size
        req.allowed_split_points).1).indexLtStop ∧
    ((op.try_split req.receiver_progress req.receiver_try_split
        req.fraction_of_remainder req.total_buffer_size
        req.allowed_split_points).1).index = op.index := by
  cases hr : (op.try_split req.receiver_progress req.receiver_try_split
      req.fraction_of_remainder req.total_buffer_size
      req.allowed_split_points).2 with
  | none =>
    rw [try_split_none_unchanged _ _ _ _ _ _ hr]
    exact ⟨stopLE_refl _, h0, rfl⟩
  | some r =>
    obtain ⟨heq, hlt, hle, _⟩ :=
      try_split_some_spec _ _ _ _ _ _ _ hr h0
    rw [heq]
    exact ⟨hle, hlt, rfl⟩

theorem try_split_states_chain (reqs : List SplitRequest) :
    ∀ (op : DataInputOperation), op.indexLtStop →
    List.Chain' (fun a b => stopLE b.stop a.stop)
      (op :: try_split_states op reqs) := by
  induction reqs with
  | nil =>
    intro op h0
    simp [try_split_states]
  | cons req rest ih =>
    intro op h0
    obtain ⟨hle, hinv, _⟩ := try_split_step op h0 req
    rw [try_split_states, List.chain'_cons]
    exact ⟨hle, ih _ hinv⟩

/-- C2: the pure split computation, at `index = -1`,
`current_element_progress = 1.0`, `stop = +∞`, `fraction_of_remainder = 0.5`,
`total_buffer_size = 10` and no allowed-split-point restriction, returns the
boundary split `(4, [], [], 5)`: last primary ordinal 4, first residual
ordinal 5. -/
theorem c2_compute_split_boundary_example :
    compute_split (α := Unit) (β := Unit) (-1) 1 none (1/2) 10 []
      (fun _ => none) = some (4, [], [], 5) :=
  compute_split_ten_no_allowed

/-- C3: when `allowed_split_points` is non-empty and the raw candidate
`stop_index` is not a member, `_compute_split` snaps it exactly by the stated
rule (below the first allowed point use the first; above the last use the
last; otherwise prefer the previous point only when `index < previous` and
`stop_index - previous < next - stop_index`, else the next); in particular
with allowed points `{2, 7}` and raw candidate 5 the computation returns the
boundary split at 7. -/
theorem c3_snap_to_allowed_rule :
    (∀ (allowed : List ℤ) (index stop_index : ℤ), allowed ≠ [] →
      stop_index ∉ allowed →
      snap_to_allowed allowed index stop_index =
        snap_to_allowed_spec allowed index stop_index) ∧
    compute_split (α := Unit) (β := Unit) (-1) 1 none (1/2) 10 [2, 7]
      (fun _ => none) = some (6, [], [], 7) :=
  ⟨snap_to_allowed_eq_spec, compute_split_ten_allowed_two_seven⟩

/-- Witness for C3 at the concrete input of the claim: allowed points
`{2, 7}`, candidate 5. -/
theorem c3_snap_to_allowed_rule_witness :
    (([2, 7] : List ℤ) ≠ [] ∧ (5 : ℤ) ∉ ([2, 7] : List ℤ)) ∧
    snap_to_allowed [2, 7] (-1) 5 = snap_to_allowed_spec [2, 7] (-1) 5 :=
  ⟨⟨by decide, by decide⟩,
    c3_snap_to_allowed_rule.1 [2, 7] (-1) 5 (by decide) (by decide)⟩

/-- C10: a successful `try_split` sets `stop` to the returned residual-start
ordinal, which is strictly greater than the current `index` and at most the
previous `stop` (either it equals `index + 1`, the in-element split case, or
it is strictly below the previous `stop`, the element-boundary case); an
unsuccessful `try_split` leaves the state unchanged; hence along any sequence
of `try_split` calls the `stop` bound is non-increasing. -/
theorem c10_stop_nonincreasing (op : DataInputOperation)
    (h0 : op.indexLtStop) :
    (∀ (α β : Type) (rp : Option ℚ) (rts : ℚ → Option (List α × List β))
        (fr : ℚ) (tbs : ℤ) (allowed : List ℤ),
      ((op.try_split rp rts fr tbs allowed).2 = none →
        (op.try_split rp rts fr tbs allowed).1 = op) ∧
      (∀ r, (op.try_split rp rts fr tbs allowed).2 = some r →
        (op.try_split rp rts fr tbs allowed).1.stop = some r.2.2.2 ∧
        op.index < r.2.2.2 ∧ stopLE (some r.2.2.2) op.stop ∧
        (r.2.2.2 = op.index + 1 ∨ ltStop r.2.2.2 op.stop))) ∧
    (∀ reqs : List SplitRequest,
      List.Chain' (fun a b => stopLE b.stop a.stop)
        (op :: try_split_states op reqs)) := by
  constructor
  · intro α β rp rts fr tbs allowed
    constructor
    · exact try_split_none_unchanged op rp rts fr tbs allowed
    · intro r hr
      obtain ⟨heq, hlt, hle, hcase⟩ :=
        try_split_some_spec op rp rts fr tbs allowed r hr h0
      refine ⟨?_, hlt, hle, hcase⟩
      rw [heq]
  · intro reqs
    exact try_split_states_chain reqs op h0

/-- Witness for C10 at the fresh started adapter and one concrete split
request. -/
theorem c10_stop_nonincreasing_witness :
    example_input_op.indexLtStop ∧
    List.Chain' (fun a b => stopLE b.stop a.stop)
      (example_input_op ::
        try_split_states example_input_op [example_split_request]) := by
  have h0 : example_input_op.indexLtStop := trivial
  exact ⟨h0, (c10_stop_nonincreasing example_input_op h0).2 _⟩

theorem try_split_initial_eval :
    DataInputOperation.try_split (α := Unit) (β := Unit) example_input_op
      none (fun _ => none) (1/2) 10 [] =
    ({ index := -1, stop := some 5, started := true },
      some (4, [], [], 5)) := by
  unfold DataInputOperation.try_split example_input_op
  rw [if_neg (by simp)]
  have hprog : data_input_current_progress (-1) none = 1 := by
    unfold data_input_current_progress
    rw [if_pos rfl]
  rw [hprog, compute_split_ten_no_allowed]

/-- C1: once a successful `try_split` has set `stop = k`, no subsequent
sequence of `process_encoded` calls emits an element ordinal `≥ k` (the
`index` never reaches `k`), and a buffer that straddles the boundary is
truncated there: exactly the first `k - 1 - index` decoded elements are
emitted, the rest of the buffer is dropped (the adapter state retains no
buffered data at all, so the remainder is discarded, not kept for later). -/
theorem c1_stop_bound_respected {α σ τ : Type} (op0 : DataInputOperation)
    (rp : Option ℚ) (rts : ℚ → Option (List σ × List τ)) (fr : ℚ) (tbs : ℤ)
    (allowed : List ℤ) (r : ℤ × List σ × List τ × ℤ) (k : ℤ)
    (h0 : op0.indexLtStop)
    (hsplit : (op0.try_split rp rts fr tbs allowed).2 = some r)
    (hk : k = r.2.2.2)
    (buffers : List (List α)) (buffer : List α) :
    (∀ p ∈ (((op0.try_split rp rts fr tbs allowed).1).process_sequence
        buffers).2, p.1 < k) ∧
    (((op0.try_split rp rts fr tbs allowed).1).process_sequence
        buffers).1.index < k ∧
    (((op0.try_split rp rts fr tbs allowed).1).process_sequence
        buffers).1.stop = some k ∧
    (((op0.try_split rp rts fr tbs allowed).1).process_encoded
        buffer).2.map Prod.snd =
      buffer.take
        (k - 1 - ((op0.try_split rp rts fr tbs allowed).1).index).toNat := by
  obtain ⟨heq, hlt, _, _⟩ :=
    try_split_some_spec op0 rp rts fr tbs allowed r hsplit h0
  subst hk
  have hstop : ((op0.try_split rp rts fr tbs allowed).1).stop =
      some r.2.2.2 := by
    rw [heq]
  have hidx : ((op0.try_split rp rts fr tbs allowed).1).index < r.2.2.2 := by
    rw [heq]
    exact hlt
  obtain ⟨s1, s2, s3⟩ :=
    process_sequence_spec r.2.2.2 buffers _ hstop hidx
  obtain ⟨_, _, _, _, e5⟩ :=
    process_encoded_spec r.2.2.2 buffer _ hstop hidx
  exact ⟨s3, s2, s1, e5⟩

/-- Witness for C1: the fresh adapter accepts the concrete split
`(4, [], [], 5)` and then never emits ordinal 5 or beyond across two buffers,
truncating at the boundary. -/
theorem c1_stop_bound_respected_witness :
    example_input_op.indexLtStop ∧
    (DataInputOperation.try_split (α := Unit) (β := Unit) example_input_op
      none (fun _ => none) (1/2) 10 []).2 = some (4, [], [], 5) ∧
    ((5 : ℤ) = (4, ([] : List Unit), ([] : List Unit), (5 : ℤ)).2.2.2) ∧
    ((∀ p ∈ (((DataInputOperation.try_split (α := Unit) (β := Unit)
          example_input_op none (fun _ => none) (1/2) 10
          []).1).process_sequence [[(10 : ℤ), 11, 12], [13, 14, 15, 16]]).2,
        p.1 < (5 : ℤ)) ∧
      (((DataInputOperation.try_split (α := Unit) (β := Unit)
          example_input_op none (fun _ => none) (1/2) 10
          []).1).process_sequence
          [[(10 : ℤ), 11, 12], [13, 14, 15, 16]]).1.index < 5 ∧
      (((DataInputOperation.try_split (α := Unit) (β := Unit)
          example_input_op none (fun _ => none) (1/2) 10
          []).1).process_sequence
          [[(10 : ℤ), 11, 12], [13, 14, 15, 16]]).1.stop = some 5 ∧
      (((DataInputOperation.try_split (α := Unit) (β := Unit)
          example_input_op none (fun _ => none) (1/2) 10
          []).1).process_encoded [(20 : ℤ), 21, 22, 23, 24, 25, 26]).2.map
          Prod.snd =
        [20, 21, 22, 23, 24, 25, 26].take
          ((5 : ℤ) - 1 - ((DataInputOperation.try_split (α := Unit)
            (β := Unit) example_input_op none (fun _ => none) (1/2) 10
            []).1).index).toNat) := by
  have h0 : example_input_op.indexLtStop := trivial
  have hsplit : (DataInputOperation.try_split (α := Unit) (β := Unit)
      example_input_op none (fun _ => none) (1/2) 10 []).2 =
      some (4, [], [], 5) := by
    rw [try_split_initial_eval]
  exact ⟨h0, hsplit, rfl,
    c1_stop_bound_respected example_input_op none (fun _ => none) (1/2) 10
      [] (4, [], [], 5) 5 h0 hsplit rfl [[(10 : ℤ), 11, 12], [13, 14, 15, 16]]
      [20, 21, 22, 23, 24, 25, 26]⟩

theorem bag_commit_awaits_last {V : Type} (st : SynchronousBagRuntimeState V) :
    st.commit.awaited = st.commit.issued.getLast?.toList := by
  obtain ⟨c, a⟩ := st
  cases c <;> cases a <;>
    simp [SynchronousBagRuntimeState.commit]

theorem set_commit_awaits_last {V : Type} (st : SynchronousSetRuntimeState V) :
    st.commit.awaited = st.commit.issued.getLast?.toList := by
  obtain ⟨c, a⟩ := st
  cases c <;> cases a <;>
    simp [SynchronousSetRuntimeState.commit]

/-- C4 counterexample: a Bag state that was both cleared and given one
buffered add issues a clear and an append, but the clear request it issued is
not among the operations whose futures `commit` waits for — refuting
"commit awaits every pending operation it issued". -/
theorem c4_commit_counterexample :
    StateRequest.clearReq ∈ (SynchronousBagRuntimeState.commit
      { cleared := true, added_elements := [(0 : ℤ)] }).issued ∧
    StateRequest.clearReq ∉ (SynchronousBagRuntimeState.commit
      { cleared := true, added_elements := [(0 : ℤ)] }).awaited := by
  decide

/-- C4 (amended): every commit issues a clear exactly when the state was
cleared and an append exactly when there are buffered adds; the Bag and Set
commits then await only the *last* operation they issued (so they do await
every issued operation except when both a clear and an append were issued, in
which case the clear is not awaited), while the OrderedList commit awaits
every operation it issued. -/
theorem c4_commit_issue_await (V : Type) :
    (∀ st : SynchronousBagRuntimeState V,
      st.commit.issued =
        (if st.cleared then [StateRequest.clearReq] else []) ++
          (if st.added_elements.isEmpty then []
            else [StateRequest.appendReq st.added_elements]) ∧
      st.commit.awaited = st.commit.issued.getLast?.toList ∧
      (¬(st.cleared = true ∧ st.added_elements ≠ []) →
        st.commit.awaited = st.commit.issued)) ∧
    (∀ st : SynchronousSetRuntimeState V,
      st.commit.issued =
        (if st.cleared then [StateRequest.clearReq] else []) ++
          (if st.added_elements.isEmpty then []
            else [StateRequest.appendReq st.added_elements]) ∧
      st.commit.awaited = st.commit.issued.getLast?.toList ∧
      (¬(st.cleared = true ∧ st.added_elements ≠ []) →
        st.commit.awaited = st.commit.issued)) ∧
    (∀ st : SynchronousOrderedListRuntimeState V,
      st.commit.1.issued =
        st.pending_removes.map
          (fun r => StateRequest.clearRangeReq r.1 r.2) ++
          (if st.pending_adds.isEmpty then []
            else [StateRequest.appendReq ((st.pending_adds.map
              (fun kv => kv.2.map (fun v => (kv.1, v)))).flatten)]) ∧
      st.commit.1.awaited = st.commit.1.issued) := by
  refine ⟨fun st => ⟨rfl, bag_commit_awaits_last st, ?_⟩,
    fun st => ⟨rfl, set_commit_awaits_last st, ?_⟩,
    fun st => ⟨rfl, rfl⟩⟩
  · intro hn
    obtain ⟨c, a⟩ := st
    cases c <;> cases a <;>
      simp_all [SynchronousBagRuntimeState.commit]
  · intro hn
    obtain ⟨c, a⟩ := st
    cases c <;> cases a <;>
      simp_all [SynchronousSetRuntimeState.commit]

/-- Witness for C4 (amended) at a cleared Bag with no adds: the inner
implication fires and the awaited list equals the issued list. -/
theorem c4_commit_issue_await_witness :
    (¬((SynchronousBagRuntimeState.mk true ([] : List ℤ)).cleared = true ∧
        (SynchronousBagRuntimeState.mk true ([] : List ℤ)).added_elements ≠
          [])) ∧
    (SynchronousBagRuntimeState.mk true ([] : List ℤ)).commit.awaited =
      (SynchronousBagRuntimeState.mk true ([] : List ℤ)).commit.issued :=
  ⟨by decide, ((c4_commit_issue_await ℤ).1 ⟨true, []⟩).2.2 (by decide)⟩

theorem combining_run_merge {A V O : Type} (cf : CombineFn A V O)
    (hsingle : ∀ a, cf.merge_accumulators [a] = a)
    (hblind : ∀ (xs : List A) (v : V),
      cf.merge_accumulators
        (xs ++ [cf.add_input cf.create_accumulator v]) =
        cf.add_input (cf.merge_accumulators xs) v)
    (ops : List (CombiningOp V)) :
    ∀ content : List A,
      cf.merge_accumulators (combining_run cf ops content) =
        (added_values ops).foldl cf.add_input
          (cf.merge_accumulators content) := by
  induction ops with
  | nil =>
    intro content
    simp [combining_run, added_values]
  | cons op rest ih =>
    intro content
    cases op with
    | addOp v coin =>
      have hstep : cf.merge_accumulators (combining_add cf coin content v) =
          cf.add_input (cf.merge_accumulators content) v := by
        cases coin with
        | true =>
          unfold combining_add read_accumulator
          simp only [if_pos]
          rw [List.nil_append]
          exact hsingle _
        | false =>
          unfold combining_add
          simp only [if_neg]
          exact hblind content v
      rw [combining_run]
      rw [ih (combining_add cf coin content v)]
      rw [hstep]
      rfl
    | readOp =>
      rw [combining_run]
      rw [ih (combining_read cf content).2]
      have hread : cf.merge_accumulators (combining_read cf content).2 =
          cf.merge_accumulators content := by
        unfold combining_read read_accumulator
        simp only []
        exact hsingle _
      rw [hread]
      rfl

/-- C6: given a combine function satisfying its algebraic contract (merging a
singleton is the identity, and appending a freshly seeded accumulator merges
to an `add_input`), any interleaving of `add` calls (with arbitrary internal
coin flips) and `read` calls leaves `read` returning the extracted output of
the merge of all added values over the initial accumulators — the random
merge-and-replace versus fresh-accumulator paths are unobservable. -/
theorem c6_combining_value_read {A V O : Type} (cf : CombineFn A V O)
    (hsingle : ∀ a, cf.merge_accumulators [a] = a)
    (hblind : ∀ (xs : List A) (v : V),
      cf.merge_accumulators
        (xs ++ [cf.add_input cf.create_accumulator v]) =
        cf.add_input (cf.merge_accumulators xs) v)
    (ops : List (CombiningOp V)) (content : List A) :
    (combining_read cf (combining_run cf ops content)).1 =
      cf.extract_output ((added_values ops).foldl cf.add_input
        (cf.merge_accumulators content)) := by
  unfold combining_read read_accumulator
  simp only []
  rw [combining_run_merge cf hsingle hblind ops content]

/-- Witness for C6 with the integer-sum combine function and a mixed
sequence of adds (on both coin paths) and an interleaved read. -/
theorem c6_combining_value_read_witness :
    (∀ a : ℤ, sum_combine_fn.merge_accumulators [a] = a) ∧
    (∀ (xs : List ℤ) (v : ℤ),
      sum_combine_fn.merge_accumulators
        (xs ++ [sum_combine_fn.add_input sum_combine_fn.create_accumulator
          v]) =
        sum_combine_fn.add_input (sum_combine_fn.merge_accumulators xs) v) ∧
    (combining_read sum_combine_fn (combining_run sum_combine_fn
        [CombiningOp.addOp (3 : ℤ) true, CombiningOp.addOp 4 false,
          CombiningOp.readOp, CombiningOp.addOp 5 true] [])).1 =
      sum_combine_fn.extract_output
        ((added_values [CombiningOp.addOp (3 : ℤ) true,
          CombiningOp.addOp 4 false, CombiningOp.readOp,
          CombiningOp.addOp 5 true]).foldl sum_combine_fn.add_input
          (sum_combine_fn.merge_accumulators [])) := by
  have hsingle : ∀ a : ℤ, sum_combine_fn.merge_accumulators [a] = a := by
    intro a
    simp [sum_combine_fn]
  have hblind : ∀ (xs : List ℤ) (v : ℤ),
      sum_combine_fn.merge_accumulators
        (xs ++ [sum_combine_fn.add_input sum_combine_fn.create_accumulator
          v]) =
        sum_combine_fn.add_input (sum_combine_fn.merge_accumulators xs) v := by
    intro xs v
    simp [sum_combine_fn]
  exact ⟨hsingle, hblind,
    c6_combining_value_read sum_combine_fn hsingle hblind _ _⟩

/-- C7 counterexample: in the two-node source→sink graph, the heights along
the start order are `[1, 2]` (sink first) — not descending — and along the
finish order `[2, 1]` — not ascending; the claim has the two directions
swapped. -/
theorem c7_order_counterexample :
    (start_order twoNodeDescriptor).map
      (topological_height twoNodeDescriptor twoNodeDescriptor.length) =
        [1, 2] ∧
    ¬ ((start_order twoNodeDescriptor).map
      (topological_height twoNodeDescriptor
        twoNodeDescriptor.length)).Pairwise (· ≥ ·) ∧
    (finish_order twoNodeDescriptor).map
      (topological_height twoNodeDescriptor twoNodeDescriptor.length) =
        [2, 1] ∧
    ¬ ((finish_order twoNodeDescriptor).map
      (topological_height twoNodeDescriptor
        twoNodeDescriptor.length)).Pairwise (· ≤ ·) := by
  decide

/-- C7 (amended): `process_bundle` starts operations in *ascending*
topological-height order (sinks first, so consumers are ready before
producers emit) and finishes them in *descending* topological-height order
(sources first, so producers flush before consumers finalize). -/
theorem c7_start_finish_order (transforms : List TransformProto) :
    ((start_order transforms).map
      (topological_height transforms transforms.length)).Pairwise (· ≤ ·) ∧
    ((finish_order transforms).map
      (topological_height transforms transforms.length)).Pairwise (· ≥ ·) := by
  have hsorted : (execution_order transforms).Pairwise (fun a b =>
      topological_height transforms transforms.length b ≤
        topological_height transforms transforms.length a) := by
    unfold execution_order
    letI : IsTotal ℕ (fun a b =>
        topological_height transforms transforms.length b ≤
          topological_height transforms transforms.length a) :=
      ⟨fun a b => le_total _ _⟩
    letI : IsTrans ℕ (fun a b =>
        topological_height transforms transforms.length b ≤
          topological_height transforms transforms.length a) :=
      ⟨fun _ _ _ hab hbc => le_trans hbc hab⟩
    exact List.sorted_insertionSort _ _
  constructor
  · unfold start_order
    rw [List.pairwise_map, List.pairwise_reverse]
    exact hsorted
  · unfold finish_order
    rw [List.pairwise_map]
    exact hsorted

/-- C8: `process_bundle(instruction_id)` fails — returns an error rather
than proceeding — when another instruction is already current on the same
processor.  (The enforcing collaborator is spec-modelled; see
`process_bundle`.) -/
theorem c8_process_bundle_busy (st : BundleProcessorState)
    (instruction_id : ℕ) (h : st.current_instruction_id ≠ none) :
    ∃ msg, process_bundle st instruction_id = Except.error msg := by
  unfold process_bundle
  rw [if_pos (Option.isSome_iff_ne_none.mpr h)]
  exact ⟨_, rfl⟩

/-- Witness for C8: a processor already running instruction 0 rejects a
second `process_bundle` call. -/
theorem c8_process_bundle_busy_witness :
    (BundleProcessorState.mk (some 0)).current_instruction_id ≠ none ∧
    ∃ msg, process_bundle (BundleProcessorState.mk (some 0)) 1 =
      Except.error msg :=
  ⟨by decide, c8_process_bundle_busy _ 1 (by decide)⟩

theorem dict_get_set_self {K V : Type} [DecidableEq K] (c : List (K × V))
    (k : K) (v : V) : dict_get (dict_set c k v) k = some v := by
  induction c with
  | nil => simp [dict_set, dict_get]
  | cons kv rest ih =>
    unfold dict_set
    by_cases h : kv.1 = k
    · rw [if_pos h]
      simp [dict_get]
    · rw [if_neg h]
      unfold dict_get
      rw [if_neg h]
      exact ih

theorem dict_get_set_ne {K V : Type} [DecidableEq K] (c : List (K × V))
    (k : K) (v : V) (k2 : K) (h : k ≠ k2) :
    dict_get (dict_set c k v) k2 = dict_get c k2 := by
  induction c with
  | nil => simp [dict_set, dict_get, h]
  | cons kv rest ih =>
    unfold dict_set
    by_cases h1 : kv.1 = k
    · rw [if_pos h1]
      unfold dict_get
      rw [if_neg h, if_neg (h1 ▸ h)]
    · rw [if_neg h1]
      unfold dict_get
      by_cases h2 : kv.1 = k2
      · rw [if_pos h2, if_pos h2]
      · rw [if_neg h2, if_neg h2]
        exact ih

theorem bulk_load_loop_fully {K W : Type} [DecidableEq K]
    (entries : List (K × List W)) :
    ∀ (ix : ℕ) (cache : List (K × List W)),
    ix + entries.length ≤ bulk_read_limit + 1 →
    bulk_load_loop false ix cache entries =
      (entries.foldl (fun c kv => dict_set c kv.1 kv.2) cache,
        BulkReadStatus.fully) := by
  induction entries with
  | nil =>
    intro ix cache h
    rfl
  | cons kv rest ih =>
    intro ix cache h
    obtain ⟨k, vs⟩ := kv
    simp only [bulk_load_loop]
    rw [if_neg (by
      simp only [List.length_cons] at h
      omega)]
    rw [ih (ix + 1) _ (by simp only [List.length_cons] at h; omega)]
    rfl

theorem bulk_load_loop_partly {K W : Type} [DecidableEq K] (raises : Bool)
    (entries : List (K × List W)) :
    ∀ (ix : ℕ) (cache : List (K × List W)),
    (raises = true ∨
      (1 ≤ entries.length ∧ bulk_read_limit + 2 ≤ ix + entries.length)) →
    (bulk_load_loop raises ix cache entries).2 = BulkReadStatus.partly := by
  induction entries with
  | nil =>
    intro ix cache h
    rcases h with h | h
    · subst h
      rfl
    · simp at h
  | cons kv rest ih =>
    intro ix cache h
    obtain ⟨k, vs⟩ := kv
    simp only [bulk_load_loop]
    by_cases hix : ix > bulk_read_limit
    · rw [if_pos hix]
    · rw [if_neg hix]
      apply ih
      rcases h with h | h
      · exact Or.inl h
      · right
        simp only [List.length_cons] at h
        unfold bulk_read_limit at *
        omega

theorem multimap_getitem_after {K W : Type} [DecidableEq K]
    (entries : List (K × List W)) (raises : Bool) (pl : K → List W)
    (st : MultiMapView K W) (s : BulkReadStatus)
    (hst : st.bulk_read = some s) (key : K) :
    multimap_getitem true entries raises pl st key =
      if s = BulkReadStatus.fully then ((dict_get st.cache key).getD [], st)
      else
        match dict_get st.cache key with
        | some vs => (vs, st)
        | none =>
          (pl key, { st with cache := dict_set st.cache key (pl key) }) := by
  obtain ⟨br, cache⟩ := st
  have hbr : br = some s := hst
  subst hbr
  cases s with
  | fully =>
    rw [if_pos rfl]
    simp [multimap_getitem]
  | partly =>
    rw [if_neg (by simp)]
    cases hdg : dict_get cache key with
    | some vs =>
      simp [multimap_getitem, hdg]
    | none =>
      simp [multimap_getitem, hdg]

/-- C9: with bulk reading enabled, the first lookup attempts one bulk read.
If the iterable is exhausted without raising (it fits within the read
limit), the view is marked fully read and this and every later lookup is
served purely from the in-memory cache (missing keys yielding `[]`, the
point-lookup collaborator never consulted).  If the iteration overruns the
limit or the iterable raises, the view is marked partially read, keeps every
entry it managed to cache, and from then on serves cached keys from the
cache and falls back to a per-key point lookup for the rest; in either case
the marker is set once and the bulk read is never re-attempted. -/
theorem c9_multimap_bulk_read {K W : Type} [DecidableEq K]
    (entries : List (K × List W)) (raises : Bool) (pl : K → List W)
    (key : K) :
    ((raises = false ∧ entries.length ≤ bulk_read_limit + 1) →
      multimap_getitem true entries raises pl MultiMapView.initial key =
        ((dict_get (entries.foldl (fun c kv => dict_set c kv.1 kv.2) [])
            key).getD [],
          { bulk_read := some BulkReadStatus.fully,
            cache := entries.foldl (fun c kv => dict_set c kv.1 kv.2) [] }) ∧
      (∀ (st : MultiMapView K W), st.bulk_read = some BulkReadStatus.fully →
        ∀ (pl2 : K → List W) (key2 : K),
          multimap_getitem true entries raises pl2 st key2 =
            ((dict_get st.cache key2).getD [], st))) ∧
    ((raises = true ∨ bulk_read_limit + 2 ≤ entries.length) →
      (multimap_getitem true entries raises pl MultiMapView.initial
          key).2.bulk_read = some BulkReadStatus.partly ∧
      (∀ (k2 : K) (v : List W),
        dict_get (bulk_load_loop raises 0 [] entries).1 k2 = some v →
        dict_get (multimap_getitem true entries raises pl
          MultiMapView.initial key).2.cache k2 = some v) ∧
      (∀ (st : MultiMapView K W), st.bulk_read = some BulkReadStatus.partly →
        ∀ (pl2 : K → List W) (key2 : K),
          multimap_getitem true entries raises pl2 st key2 =
            (match dict_get st.cache key2 with
             | some vs => (vs, st)
             | none => (pl2 key2,
                 { st with cache := dict_set st.cache key2 (pl2 key2) })))) := by
  constructor
  · rintro ⟨hraises, hlen⟩
    subst hraises
    constructor
    · have hload := bulk_load_loop_fully entries 0 [] (by omega)
      simp [multimap_getitem, MultiMapView.initial, hload]
    · intro st hst pl2 key2
      rw [multimap_getitem_after entries false pl2 st BulkReadStatus.fully
        hst key2]
      rw [if_pos rfl]
  · intro hover
    have hpartly : (bulk_load_loop raises 0 [] entries).2 =
        BulkReadStatus.partly := by
      apply bulk_load_loop_partly
      rcases hover with h | h
      · exact Or.inl h
      · right
        unfold bulk_read_limit at *
        omega
    have hfirst : (multimap_getitem true entries raises pl
        MultiMapView.initial key).2.bulk_read = some BulkReadStatus.partly ∧
        ((multimap_getitem true entries raises pl
          MultiMapView.initial key).2.cache =
            (bulk_load_loop raises 0 [] entries).1 ∨
          (dict_get (bulk_load_loop raises 0 [] entries).1 key = none ∧
            (multimap_getitem true entries raises pl
              MultiMapView.initial key).2.cache =
                dict_set (bulk_load_loop raises 0 [] entries).1 key
                  (pl key))) := by
      cases hdg : dict_get (bulk_load_loop raises 0 [] entries).1 key with
      | some vs =>
        refine ⟨?_, Or.inl ?_⟩ <;>
          simp [multimap_getitem, MultiMapView.initial, hpartly, hdg]
      | none =>
        refine ⟨?_, Or.inr ⟨rfl, ?_⟩⟩ <;>
          simp [multimap_getitem, MultiMapView.initial, hpartly, hdg]
    refine ⟨hfirst.1, ?_, ?_⟩
    · intro k2 v hv
      rcases hfirst.2 with hc | ⟨hnone, hc⟩
      · rw [hc]
        exact hv
      · rw [hc]
        by_cases hk : key = k2
        · subst hk
          rw [hnone] at hv
          exact absurd hv (by simp)
        · rw [dict_get_set_ne _ _ _ _ hk]
          exact hv
    · intro st hst pl2 key2
      rw [multimap_getitem_after entries raises pl2 st BulkReadStatus.partly
        hst key2]
      rw [if_neg (by simp)]

/-- Witness for C9: a two-entry iterable is bulk-read fully and served from
the cache; an iterable that raises immediately leaves the view in the
permanent point-lookup mode. -/
theorem c9_multimap_bulk_read_witness :
    (false = false ∧
      ([((1 : ℤ), [(10 : ℤ)]), (2, [20])] :
        List (ℤ × List ℤ)).length ≤ bulk_read_limit + 1) ∧
    multimap_getitem true [((1 : ℤ), [(10 : ℤ)]), (2, [20])] false
        (fun _ => []) MultiMapView.initial 1 =
      ((dict_get (([((1 : ℤ), [(10 : ℤ)]), (2, [20])] :
          List (ℤ × List ℤ)).foldl
          (fun c kv => dict_set c kv.1 kv.2) []) 1).getD [],
        { bulk_read := some BulkReadStatus.fully,
          cache := ([((1 : ℤ), [(10 : ℤ)]), (2, [20])] :
            List (ℤ × List ℤ)).foldl
            (fun c kv => dict_set c kv.1 kv.2) [] }) ∧
    ((true = true ∨ bulk_read_limit + 2 ≤
        ([] : List (ℤ × List ℤ)).length) ∧
      (multimap_getitem true ([] : List (ℤ × List ℤ)) true (fun _ => [])
        MultiMapView.initial (5 : ℤ)).2.bulk_read =
          some BulkReadStatus.partly) :=
  ⟨⟨rfl, by decide⟩,
    ((c9_multimap_bulk_read [((1 : ℤ), [(10 : ℤ)]), (2, [20])] false
      (fun _ => []) 1).1 ⟨rfl, by decide⟩).1,
    Or.inl rfl,
    ((c9_multimap_bulk_read ([] : List (ℤ × List ℤ)) true (fun _ => [])
      5).2 (Or.inl rfl)).1⟩
